import Mathlib

/-
Verification of the LRU / LFU cache pair of the repository
(src/by-language/rust/dsa-data-structures/src/caches/lru_cache.rs and
lfu_cache.rs), following the natural-language specification.

Embedding conventions:
- The LRU cache stores a BTreeMap from keys to raw pointers into a doubly
  linked list.  Under the implementation invariant that the map points at
  exactly the live nodes, the whole state is captured by the list of
  (key, value) nodes in order from head (most recently used) to tail
  (least recently used); the map is the induced key lookup.
- The LFU cache is embedded field by field: the cache BTreeMap of
  key to (value, frequency) becomes an association list (so that len is
  the number of entries), the freq_to_keys BTreeMap becomes a total
  function from Nat to List K (a missing bucket and an empty bucket are
  observationally identical in every use the source makes of the map),
  and key_to_pos becomes a function from K to Option Nat.
- Rust usize becomes Nat.  Panics of constructors become Option results.
- Methods taking a shared reference in Rust (peek, contains, frequency)
  are embedded as pure functions returning only the result, since the
  Rust borrow rules already forbid them from mutating the state.
-/

namespace DsaCaches

section Assoc

variable {K : Type} {A : Type} [DecidableEq K]

/-- Lookup in an association list, mirroring BTreeMap get. -/
def alookup : List (K × A) → K → Option A
  | [], _ => none
  | (k', a) :: t, k => if k' = k then some a else alookup t k

/-- Insert-or-replace in an association list, mirroring BTreeMap insert. -/
def aset : List (K × A) → K → A → List (K × A)
  | [], k, a => [(k, a)]
  | (k', a') :: t, k, a => if k' = k then (k, a) :: t else (k', a') :: aset t k a

/-- Remove a key from an association list, mirroring BTreeMap remove. -/
def aerase : List (K × A) → K → List (K × A)
  | [], _ => []
  | (k', a') :: t, k => if k' = k then t else (k', a') :: aerase t k

@[simp] theorem alookup_nil (k : K) : alookup ([] : List (K × A)) k = none := rfl

theorem alookup_aset_self (l : List (K × A)) (k : K) (a : A) :
    alookup (aset l k a) k = some a := by
  induction l with
  | nil => simp [aset, alookup]
  | cons p t ih =>
    obtain ⟨k', a'⟩ := p
    by_cases h : k' = k <;> simp [aset, alookup, h, ih]

theorem alookup_aset_ne (l : List (K × A)) (k j : K) (a : A) (h : j ≠ k) :
    alookup (aset l k a) j = alookup l j := by
  induction l with
  | nil => simp [aset, alookup, Ne.symm h]
  | cons p t ih =>
    obtain ⟨k', a'⟩ := p
    by_cases hk : k' = k
    · subst hk
      simp [aset, alookup, Ne.symm h]
    · by_cases hj : k' = j <;> simp [aset, alookup, hk, hj, ih, h]

theorem alookup_aerase_ne (l : List (K × A)) (k j : K) (h : j ≠ k) :
    alookup (aerase l k) j = alookup l j := by
  induction l with
  | nil => simp [aerase]
  | cons p t ih =>
    obtain ⟨k', a'⟩ := p
    by_cases hk : k' = k
    · subst hk
      simp [aerase, alookup, Ne.symm h]
    · by_cases hj : k' = j <;> simp [aerase, alookup, hk, hj, ih, h]

theorem keys_aerase_sublist (l : List (K × A)) (k : K) :
    ((aerase l k).map Prod.fst).Sublist (l.map Prod.fst) := by
  induction l with
  | nil => simp [aerase]
  | cons p t ih =>
    obtain ⟨k', a'⟩ := p
    by_cases hk : k' = k
    · simp only [aerase, if_pos hk]
      exact (t.map Prod.fst).sublist_cons_self k'
    · simpa [aerase, hk] using ih.cons₂ k'

/-- A successful lookup means the key is among the stored keys. -/
theorem alookup_isSome_mem (l : List (K × A)) (k : K) (a : A)
    (h : alookup l k = some a) : k ∈ l.map Prod.fst := by
  induction l with
  | nil => simp [alookup] at h
  | cons p t ih =>
    obtain ⟨k', a'⟩ := p
    by_cases hk : k' = k
    · simp [hk]
    · simp only [alookup, if_neg hk] at h
      simp [ih h]

theorem alookup_aerase_self (l : List (K × A)) (k : K)
    (h : (l.map Prod.fst).Nodup) : alookup (aerase l k) k = none := by
  induction l with
  | nil => simp [aerase]
  | cons p t ih =>
    obtain ⟨k', a'⟩ := p
    simp only [List.map_cons, List.nodup_cons] at h
    by_cases hk : k' = k
    · subst hk
      simp only [aerase, if_pos rfl]
      cases hl : alookup t k' with
      | none => exact hl
      | some a => exact absurd (alookup_isSome_mem t k' a hl) h.1
    · simp [aerase, alookup, hk, ih h.2]

theorem alookup_none_not_mem (l : List (K × A)) (k : K)
    (h : alookup l k = none) : k ∉ l.map Prod.fst := by
  induction l with
  | nil => simp
  | cons p t ih =>
    obtain ⟨k', a'⟩ := p
    by_cases hk : k' = k
    · simp [alookup, hk] at h
    · simp only [alookup, if_neg hk] at h
      simp [ih h, Ne.symm hk]

theorem aset_of_lookup_none (l : List (K × A)) (k : K) (a : A)
    (h : alookup l k = none) : aset l k a = l ++ [(k, a)] := by
  induction l with
  | nil => simp [aset]
  | cons p t ih =>
    obtain ⟨k', a'⟩ := p
    by_cases hk : k' = k
    · simp [alookup, hk] at h
    · simp only [alookup, if_neg hk] at h
      simp [aset, hk, ih h]

theorem keys_aset_of_lookup_some (l : List (K × A)) (k : K) (a b : A)
    (h : alookup l k = some b) :
    (aset l k a).map Prod.fst = l.map Prod.fst := by
  induction l with
  | nil => simp [alookup] at h
  | cons p t ih =>
    obtain ⟨k', a'⟩ := p
    by_cases hk : k' = k
    · simp [aset, hk]
    · simp only [alookup, if_neg hk] at h
      simp [aset, hk, ih h]

theorem length_aset_of_lookup_some (l : List (K × A)) (k : K) (a b : A)
    (h : alookup l k = some b) : (aset l k a).length = l.length := by
  have := congrArg List.length (keys_aset_of_lookup_some l k a b h)
  simpa using this

theorem length_aerase_of_lookup_some (l : List (K × A)) (k : K) (a : A)
    (h : alookup l k = some a) : (aerase l k).length + 1 = l.length := by
  induction l with
  | nil => simp [alookup] at h
  | cons p t ih =>
    obtain ⟨k', a'⟩ := p
    by_cases hk : k' = k
    · simp [aerase, hk]
    · simp only [alookup, if_neg hk] at h
      simp [aerase, hk, ih h]

theorem nodup_keys_aset (l : List (K × A)) (k : K) (a : A)
    (h : (l.map Prod.fst).Nodup) : ((aset l k a).map Prod.fst).Nodup := by
  cases hl : alookup l k with
  | some b => rw [keys_aset_of_lookup_some l k a b hl]; exact h
  | none =>
    rw [aset_of_lookup_none l k a hl]
    have hnm := alookup_none_not_mem l k hl
    simp only [List.map_append, List.map_cons, List.map_nil]
    rw [List.nodup_append]
    refine ⟨h, List.nodup_singleton k, ?_⟩
    intro x hx hx'
    simp only [List.mem_singleton] at hx'
    subst hx'
    exact hnm hx

theorem nodup_keys_aerase (l : List (K × A)) (k : K)
    (h : (l.map Prod.fst).Nodup) : ((aerase l k).map Prod.fst).Nodup :=
  (keys_aerase_sublist l k).nodup h

end Assoc

section Fupd

variable {α : Type} {β : Type} [DecidableEq α]

/-- Pointwise function update, modelling a single-key map write. -/
def fupd (f : α → β) (a : α) (b : β) : α → β :=
  fun x => if x = a then b else f x

@[simp] theorem fupd_self (f : α → β) (a : α) (b : β) : fupd f a b a = b := by
  simp [fupd]

@[simp] theorem fupd_ne (f : α → β) (a : α) (b : β) (x : α) (h : x ≠ a) :
    fupd f a b x = f x := by
  simp [fupd, h]

end Fupd

section Positions

variable {K : Type} [DecidableEq K]

/-- Sequentially writes position i, i+1, ... for the listed keys into a
position index, modelling the for-loops in the source that repair
key_to_pos after an element of a bucket has been removed. -/
def setPositions (kp : K → Option Nat) : List K → Nat → K → Option Nat
  | [], _ => kp
  | x :: xs, i => setPositions (fupd kp x (some i)) xs (i + 1)

theorem setPositions_not_mem (kp : K → Option Nat) (ks : List K) (i : Nat)
    (j : K) (h : j ∉ ks) : setPositions kp ks i j = kp j := by
  induction ks generalizing kp i with
  | nil => rfl
  | cons x xs ih =>
    simp only [List.mem_cons, not_or] at h
    simp [setPositions, ih _ _ h.2, fupd_ne _ _ _ _ h.1]

theorem setPositions_decomp (kp : K → Option Nat) (m₁ : List K) (j : K)
    (m₂ : List K) (i : Nat) (hj : j ∉ m₂) :
    setPositions kp (m₁ ++ j :: m₂) i j = some (i + m₁.length) := by
  induction m₁ generalizing kp i with
  | nil =>
    simp only [List.nil_append, setPositions]
    rw [setPositions_not_mem _ _ _ _ hj]
    simp
  | cons x m₁ ih =>
    simp only [List.cons_append, setPositions, List.append_eq]
    rw [ih]
    simp [Nat.add_assoc, Nat.add_comm 1]

/-- Index of the first occurrence of a key in a list (length if absent). -/
def pidx (k : K) : List K → Nat
  | [] => 0
  | x :: xs => if x = k then 0 else pidx k xs + 1

theorem pidx_decomp (k : K) (l : List K) (h : k ∈ l) :
    ∃ l₁ l₂, l = l₁ ++ k :: l₂ ∧ k ∉ l₁ ∧ pidx k l = l₁.length := by
  induction l with
  | nil => simp at h
  | cons x xs ih =>
    by_cases hx : x = k
    · exact ⟨[], xs, by simp [hx], by simp, by simp [pidx, hx]⟩
    · have hmem : k ∈ xs := by
        rcases List.mem_cons.mp h with h1 | h1
        · exact absurd h1.symm hx
        · exact h1
      obtain ⟨l₁, l₂, heq, hnm, hp⟩ := ih hmem
      exact ⟨x :: l₁, l₂, by simp [heq], by simp [hnm, Ne.symm hx],
        by simp [pidx, hx, hp]⟩

theorem pidx_append_left (k : K) (l₁ l₂ : List K) (h : k ∈ l₁) :
    pidx k (l₁ ++ l₂) = pidx k l₁ := by
  induction l₁ with
  | nil => simp at h
  | cons x xs ih =>
    by_cases hx : x = k
    · simp [pidx, hx]
    · have hmem : k ∈ xs := by
        rcases List.mem_cons.mp h with h1 | h1
        · exact absurd h1.symm hx
        · exact h1
      simp [pidx, hx, ih hmem]

theorem pidx_append_right (k : K) (l₁ l₂ : List K) (h : k ∉ l₁) :
    pidx k (l₁ ++ l₂) = l₁.length + pidx k l₂ := by
  induction l₁ with
  | nil => simp
  | cons x xs ih =>
    simp only [List.mem_cons, not_or] at h
    simp [pidx, Ne.symm h.1, ih h.2, Nat.add_assoc, Nat.add_comm 1]

theorem pidx_cons_of_ne (k x : K) (xs : List K) (h : x ≠ k) :
    pidx k (x :: xs) = pidx k xs + 1 := by
  simp [pidx, h]

theorem pidx_of_decomp (k : K) (l₁ l₂ : List K) (h : k ∉ l₁) :
    pidx k (l₁ ++ k :: l₂) = l₁.length := by
  rw [pidx_append_right k l₁ _ h]
  simp [pidx]

theorem setPositions_mem (kp : K → Option Nat) (ks : List K) (i : Nat)
    (j : K) (hnd : ks.Nodup) (h : j ∈ ks) :
    setPositions kp ks i j = some (i + pidx j ks) := by
  obtain ⟨m₁, m₂, heq, hnm, hp⟩ := pidx_decomp j ks h
  subst heq
  have hj2 : j ∉ m₂ := by
    rw [List.nodup_append] at hnd
    have := hnd.2.1
    simp only [List.nodup_cons] at this
    exact this.1
  rw [setPositions_decomp kp m₁ j m₂ i hj2, hp]

end Positions

section ListDecomp

variable {K : Type}

/-- Removal of the element at the split point. -/
theorem eraseIdx_decomp (l₁ : List K) (k : K) (l₂ : List K) :
    (l₁ ++ k :: l₂).eraseIdx l₁.length = l₁ ++ l₂ := by
  induction l₁ with
  | nil => simp [List.eraseIdx]
  | cons x xs ih => simp [List.eraseIdx, ih]

theorem getElem?_decomp (l₁ : List K) (k : K) (l₂ : List K) :
    (l₁ ++ k :: l₂)[l₁.length]? = some k := by
  induction l₁ with
  | nil => simp
  | cons x xs ih => simpa using ih

theorem drop_decomp (l₁ l₂ : List K) :
    (l₁ ++ l₂).drop l₁.length = l₂ := by
  induction l₁ with
  | nil => simp
  | cons x xs ih => simp [ih]

end ListDecomp

section LRU

variable {K V : Type} [DecidableEq K]

/-- State of the LRU cache of lru_cache.rs.  The entries list holds the
nodes of the doubly linked list from head (most recently used) to tail
(least recently used); the BTreeMap of the source is the induced key
lookup, valid under the source invariant that the map points exactly at
the live nodes. -/
structure LRUCache (K V : Type) where
  capacity : Nat
  entries : List (K × V)

/-- Lookup of the node for a key, mirroring map.get in the source. -/
def lruFind (s : LRUCache K V) (k : K) : Option (K × V) :=
  s.entries.find? (fun p => p.1 = k)

/-- LRUCache.new.  The source asserts capacity > 0 and panics otherwise;
the panic is embedded as a none result. -/
def LRUCache.mk? (capacity : Nat) : Option (LRUCache K V) :=
  if capacity > 0 then some ⟨capacity, []⟩ else none

/-- The cache state right after a successful LRUCache.new(capacity). -/
def lruNew (capacity : Nat) : LRUCache K V :=
  ⟨capacity, []⟩

/-- LRUCache.len: the map and the list have the same cardinality. -/
def LRUCache.len (s : LRUCache K V) : Nat :=
  s.entries.length

/-- LRUCache.is_empty. -/
def LRUCache.isEmpty (s : LRUCache K V) : Bool :=
  s.entries.isEmpty

/-- LRUCache.is_full. -/
def LRUCache.isFull (s : LRUCache K V) : Bool :=
  decide (s.entries.length ≥ s.capacity)

/-- LRUCache.contains. -/
def LRUCache.contains (s : LRUCache K V) (k : K) : Bool :=
  (lruFind s k).isSome

/-- LRUCache.peek: reads the value without touching the order. -/
def LRUCache.peek (s : LRUCache K V) (k : K) : Option V :=
  (lruFind s k).map Prod.snd

/-- LRUCache.put.  If the key exists the node value is updated and the
node moved to the front (unlink plus push_front, a no-op move when it is
already the head, which equals the cons-after-erase form below).  For a
new key the node is pushed at the front and, when the map has grown past
capacity, evict_lru unlinks the tail node and returns its pair. -/
def LRUCache.put (s : LRUCache K V) (k : K) (v : V) :
    Option (K × V) × LRUCache K V :=
  match lruFind s k with
  | some _ =>
      (none, ⟨s.capacity, (k, v) :: s.entries.eraseP (fun p => p.1 = k)⟩)
  | none =>
      if ((k, v) :: s.entries).length > s.capacity then
        (((k, v) :: s.entries).getLast?,
          ⟨s.capacity, ((k, v) :: s.entries).dropLast⟩)
      else
        (none, ⟨s.capacity, (k, v) :: s.entries⟩)

/-- LRUCache.get: moves the hit node to the front and returns its value. -/
def LRUCache.get (s : LRUCache K V) (k : K) : Option V × LRUCache K V :=
  match lruFind s k with
  | some p =>
      (some p.2, ⟨s.capacity, p :: s.entries.eraseP (fun q => q.1 = k)⟩)
  | none => (none, s)

/-- LRUCache.get_mut: same promotion as get; the mutable borrow is
embedded as the value read, the state change being the promotion. -/
def LRUCache.getMut (s : LRUCache K V) (k : K) : Option V × LRUCache K V :=
  match lruFind s k with
  | some p =>
      (some p.2, ⟨s.capacity, p :: s.entries.eraseP (fun q => q.1 = k)⟩)
  | none => (none, s)

/-- LRUCache.remove: unlinks the node and returns its value. -/
def LRUCache.remove (s : LRUCache K V) (k : K) : Option V × LRUCache K V :=
  match lruFind s k with
  | some p =>
      (some p.2, ⟨s.capacity, s.entries.eraseP (fun q => q.1 = k)⟩)
  | none => (none, s)

/-- LRUCache.clear. -/
def LRUCache.clear (s : LRUCache K V) : LRUCache K V :=
  ⟨s.capacity, []⟩

/-- LRUCache.keys: most recently used first. -/
def LRUCache.keysList (s : LRUCache K V) : List K :=
  s.entries.map Prod.fst

/-- One public operation of the LRU cache. -/
inductive LRUOp (K V : Type) where
  | put (k : K) (v : V)
  | get (k : K)
  | getMut (k : K)
  | peek (k : K)
  | contains (k : K)
  | remove (k : K)
  | clear
deriving DecidableEq

/-- The state transition of one operation (results discarded). -/
def lruStep (s : LRUCache K V) : LRUOp K V → LRUCache K V
  | .put k v => (s.put k v).2
  | .get k => (s.get k).2
  | .getMut k => (s.getMut k).2
  | .peek _ => s
  | .contains _ => s
  | .remove k => (s.remove k).2
  | .clear => s.clear

/-- Running a finite sequence of operations. -/
def lruRun (s : LRUCache K V) (t : List (LRUOp K V)) : LRUCache K V :=
  t.foldl lruStep s

@[simp] theorem lruRun_nil (s : LRUCache K V) : lruRun s [] = s := rfl

@[simp] theorem lruRun_cons (s : LRUCache K V) (op : LRUOp K V)
    (t : List (LRUOp K V)) : lruRun s (op :: t) = lruRun (lruStep s op) t := rfl

theorem lruRun_append (s : LRUCache K V) (t₁ t₂ : List (LRUOp K V)) :
    lruRun s (t₁ ++ t₂) = lruRun (lruRun s t₁) t₂ :=
  List.foldl_append ..

end LRU

section LRULemmas

variable {K V : Type} [DecidableEq K]

theorem findk_cons_self (k : K) (v : V) (l : List (K × V)) :
    ((k, v) :: l).find? (fun p => p.1 = k) = some (k, v) := by
  simp [List.find?_cons_of_pos]

theorem findk_cons_ne (k j : K) (v : V) (l : List (K × V)) (h : k ≠ j) :
    ((k, v) :: l).find? (fun p => p.1 = j) = l.find? (fun p => p.1 = j) := by
  rw [List.find?_cons_of_neg]
  simp [h]

theorem findk_key (l : List (K × V)) (k : K) (p : K × V)
    (h : l.find? (fun q => q.1 = k) = some p) : p.1 = k := by
  have := List.find?_some h
  simpa using this

theorem findk_eraseP_ne (l : List (K × V)) (k j : K) (h : j ≠ k) :
    (l.eraseP (fun p => p.1 = k)).find? (fun p => p.1 = j) =
      l.find? (fun p => p.1 = j) := by
  induction l with
  | nil => simp
  | cons p t ih =>
    obtain ⟨k', v'⟩ := p
    by_cases hk : k' = k
    · subst hk
      rw [List.eraseP_cons_of_pos (by simp), findk_cons_ne _ _ _ _ (Ne.symm h)]
    · rw [List.eraseP_cons_of_neg (by simp [hk])]
      by_cases hj : k' = j
      · subst hj
        rw [findk_cons_self, findk_cons_self]
      · rw [findk_cons_ne _ _ _ _ hj, findk_cons_ne _ _ _ _ hj, ih]

theorem findk_none_not_mem (l : List (K × V)) (k : K)
    (h : l.find? (fun p => p.1 = k) = none) : k ∉ l.map Prod.fst := by
  rw [List.find?_eq_none] at h
  intro hmem
  obtain ⟨p, hp, hfst⟩ := List.mem_map.mp hmem
  exact h p hp (by simp [hfst])

theorem not_mem_keys_eraseP (l : List (K × V)) (k : K)
    (h : (l.map Prod.fst).Nodup) :
    k ∉ (l.eraseP (fun p => p.1 = k)).map Prod.fst := by
  induction l with
  | nil => simp
  | cons p t ih =>
    obtain ⟨k', v'⟩ := p
    simp only [List.map_cons, List.nodup_cons] at h
    by_cases hk : k' = k
    · subst hk
      rw [List.eraseP_cons_of_pos (by simp)]
      exact h.1
    · rw [List.eraseP_cons_of_neg (by simp [hk])]
      simp only [List.map_cons, List.mem_cons, not_or]
      exact ⟨Ne.symm hk, ih h.2⟩

theorem findk_of_mem_nodup (l : List (K × V)) (p : K × V)
    (hnd : (l.map Prod.fst).Nodup) (hmem : p ∈ l) :
    l.find? (fun q => q.1 = p.1) = some p := by
  induction l with
  | nil => simp at hmem
  | cons q t ih =>
    obtain ⟨k', v'⟩ := q
    simp only [List.map_cons, List.nodup_cons] at hnd
    rcases List.mem_cons.mp hmem with h1 | h1
    · subst h1
      exact findk_cons_self _ _ _
    · have hne : k' ≠ p.1 := by
        intro hc
        exact hnd.1 (hc ▸ List.mem_map.mpr ⟨p, h1, rfl⟩)
      rw [findk_cons_ne _ _ _ _ hne, ih hnd.2 h1]

theorem findk_sublist_nodup (l₁ l₂ : List (K × V)) (j : K) (x : K × V)
    (hsub : List.Sublist l₂ l₁) (hnd : (l₁.map Prod.fst).Nodup)
    (h : l₂.find? (fun p => p.1 = j) = some x) :
    l₁.find? (fun p => p.1 = j) = some x := by
  have hmem : x ∈ l₁ := hsub.mem (List.mem_of_find?_eq_some h)
  have hkey : x.1 = j := findk_key l₂ j x h
  rw [← hkey]
  exact findk_of_mem_nodup l₁ x hnd hmem

/-- Useful facts extracted from a successful key lookup. -/
theorem lruFind_some_facts (s : LRUCache K V) (k : K) (p : K × V)
    (hf : lruFind s k = some p) :
    p ∈ s.entries ∧ p.1 = k ∧
      (s.entries.eraseP (fun q => q.1 = k)).length + 1 = s.entries.length := by
  have hf' : s.entries.find? (fun q => decide (q.1 = k)) = some p := hf
  have hmem := List.mem_of_find?_eq_some hf'
  have hp := List.find?_some hf'
  refine ⟨hmem, by simpa using hp, ?_⟩
  exact List.length_eraseP_add_one hmem hp

theorem lru_put_found (s : LRUCache K V) (k : K) (v : V) (p : K × V)
    (hf : lruFind s k = some p) :
    s.put k v =
      (none, ⟨s.capacity, (k, v) :: s.entries.eraseP (fun q => q.1 = k)⟩) := by
  simp [LRUCache.put, hf]

theorem lru_put_evict (s : LRUCache K V) (k : K) (v : V)
    (hf : lruFind s k = none) (hc : s.entries.length + 1 > s.capacity) :
    s.put k v = (((k, v) :: s.entries).getLast?,
      ⟨s.capacity, ((k, v) :: s.entries).dropLast⟩) := by
  simp only [LRUCache.put, hf, List.length_cons, if_pos hc]

theorem lru_put_room (s : LRUCache K V) (k : K) (v : V)
    (hf : lruFind s k = none) (hc : ¬ s.entries.length + 1 > s.capacity) :
    s.put k v = (none, ⟨s.capacity, (k, v) :: s.entries⟩) := by
  simp only [LRUCache.put, hf, List.length_cons, if_neg hc]

theorem lru_get_found (s : LRUCache K V) (k : K) (p : K × V)
    (hf : lruFind s k = some p) :
    s.get k = (some p.2,
      ⟨s.capacity, p :: s.entries.eraseP (fun q => q.1 = k)⟩) := by
  simp [LRUCache.get, hf]

theorem lru_get_none (s : LRUCache K V) (k : K) (hf : lruFind s k = none) :
    s.get k = (none, s) := by
  simp [LRUCache.get, hf]

theorem lru_getMut_found (s : LRUCache K V) (k : K) (p : K × V)
    (hf : lruFind s k = some p) :
    s.getMut k = (some p.2,
      ⟨s.capacity, p :: s.entries.eraseP (fun q => q.1 = k)⟩) := by
  simp [LRUCache.getMut, hf]

theorem lru_getMut_none (s : LRUCache K V) (k : K) (hf : lruFind s k = none) :
    s.getMut k = (none, s) := by
  simp [LRUCache.getMut, hf]

theorem lru_remove_found (s : LRUCache K V) (k : K) (p : K × V)
    (hf : lruFind s k = some p) :
    s.remove k = (some p.2,
      ⟨s.capacity, s.entries.eraseP (fun q => q.1 = k)⟩) := by
  simp [LRUCache.remove, hf]

theorem lru_remove_none (s : LRUCache K V) (k : K) (hf : lruFind s k = none) :
    s.remove k = (none, s) := by
  simp [LRUCache.remove, hf]

/-- Every operation preserves the configured capacity. -/
theorem lruStep_capacity (s : LRUCache K V) (op : LRUOp K V) :
    (lruStep s op).capacity = s.capacity := by
  cases op with
  | put k v =>
    simp only [lruStep]
    cases hf : lruFind s k with
    | some p => rw [lru_put_found s _ _ _ hf]
    | none =>
      by_cases hc : s.entries.length + 1 > s.capacity
      · rw [lru_put_evict s _ _ hf hc]
      · rw [lru_put_room s _ _ hf hc]
  | get k =>
    simp only [lruStep]
    cases hf : lruFind s k with
    | some p => rw [lru_get_found s _ _ hf]
    | none => rw [lru_get_none s _ hf]
  | getMut k =>
    simp only [lruStep]
    cases hf : lruFind s k with
    | some p => rw [lru_getMut_found s _ _ hf]
    | none => rw [lru_getMut_none s _ hf]
  | peek k => rfl
  | contains k => rfl
  | remove k =>
    simp only [lruStep]
    cases hf : lruFind s k with
    | some p => rw [lru_remove_found s _ _ hf]
    | none => rw [lru_remove_none s _ hf]
  | clear => rfl

theorem lruRun_capacity (s : LRUCache K V) (t : List (LRUOp K V)) :
    (lruRun s t).capacity = s.capacity := by
  induction t generalizing s with
  | nil => rfl
  | cons op t ih => rw [lruRun_cons, ih, lruStep_capacity]

/-- One operation keeps the entry count within capacity. -/
theorem lruStep_len_le (s : LRUCache K V) (op : LRUOp K V)
    (h : s.entries.length ≤ s.capacity) :
    (lruStep s op).entries.length ≤ s.capacity := by
  cases op with
  | put k v =>
    simp only [lruStep]
    cases hf : lruFind s k with
    | some p =>
      obtain ⟨hmem, hkey, hlen⟩ := lruFind_some_facts s k p hf
      rw [lru_put_found s _ _ _ hf]
      simp only [List.length_cons]
      omega
    | none =>
      by_cases hc : s.entries.length + 1 > s.capacity
      · rw [lru_put_evict s _ _ hf hc]
        simp only [List.length_dropLast, List.length_cons]
        omega
      · rw [lru_put_room s _ _ hf hc]
        simp only [List.length_cons]
        omega
  | get k =>
    simp only [lruStep]
    cases hf : lruFind s k with
    | some p =>
      obtain ⟨hmem, hkey, hlen⟩ := lruFind_some_facts s k p hf
      rw [lru_get_found s _ _ hf]
      simp only [List.length_cons]
      omega
    | none => rw [lru_get_none s _ hf]; exact h
  | getMut k =>
    simp only [lruStep]
    cases hf : lruFind s k with
    | some p =>
      obtain ⟨hmem, hkey, hlen⟩ := lruFind_some_facts s k p hf
      rw [lru_getMut_found s _ _ hf]
      simp only [List.length_cons]
      omega
    | none => rw [lru_getMut_none s _ hf]; exact h
  | peek k => exact h
  | contains k => exact h
  | remove k =>
    simp only [lruStep]
    cases hf : lruFind s k with
    | some p =>
      rw [lru_remove_found s _ _ hf]
      have := (List.eraseP_sublist s.entries
        (p := fun q : K × V => decide (q.1 = k))).length_le
      exact le_trans this h
    | none => rw [lru_remove_none s _ hf]; exact h
  | clear => simp [lruStep, LRUCache.clear]

theorem lruRun_len_le (s : LRUCache K V) (t : List (LRUOp K V))
    (h : s.entries.length ≤ s.capacity) :
    (lruRun s t).entries.length ≤ s.capacity := by
  induction t generalizing s with
  | nil => exact h
  | cons op t ih =>
    rw [lruRun_cons]
    have h1 : (lruStep s op).entries.length ≤ (lruStep s op).capacity := by
      rw [lruStep_capacity]
      exact lruStep_len_le s op h
    have := ih (lruStep s op) h1
    rwa [lruStep_capacity] at this

/-- One operation preserves distinctness of the stored keys. -/
theorem lruStep_nodup (s : LRUCache K V) (op : LRUOp K V)
    (h : (s.entries.map Prod.fst).Nodup) :
    ((lruStep s op).entries.map Prod.fst).Nodup := by
  cases op with
  | put k v =>
    simp only [lruStep]
    cases hf : lruFind s k with
    | some p =>
      rw [lru_put_found s _ _ _ hf]
      simp only [List.map_cons, List.nodup_cons]
      refine ⟨not_mem_keys_eraseP s.entries k h, ?_⟩
      exact h.sublist ((List.eraseP_sublist s.entries).map Prod.fst)
    | none =>
      have hk : k ∉ s.entries.map Prod.fst := findk_none_not_mem s.entries k hf
      have hcons : (((k, v) :: s.entries).map Prod.fst).Nodup := by
        simp only [List.map_cons, List.nodup_cons]
        exact ⟨hk, h⟩
      by_cases hc : s.entries.length + 1 > s.capacity
      · rw [lru_put_evict s _ _ hf hc]
        exact hcons.sublist ((List.dropLast_sublist _).map Prod.fst)
      · rw [lru_put_room s _ _ hf hc]
        exact hcons
  | get k =>
    simp only [lruStep]
    cases hf : lruFind s k with
    | some p =>
      rw [lru_get_found s _ _ hf]
      have hkey : p.1 = k := (lruFind_some_facts s k p hf).2.1
      simp only [List.map_cons, List.nodup_cons]
      refine ⟨hkey ▸ not_mem_keys_eraseP s.entries k h, ?_⟩
      exact h.sublist ((List.eraseP_sublist s.entries).map Prod.fst)
    | none => rw [lru_get_none s _ hf]; exact h
  | getMut k =>
    simp only [lruStep]
    cases hf : lruFind s k with
    | some p =>
      rw [lru_getMut_found s _ _ hf]
      have hkey : p.1 = k := (lruFind_some_facts s k p hf).2.1
      simp only [List.map_cons, List.nodup_cons]
      refine ⟨hkey ▸ not_mem_keys_eraseP s.entries k h, ?_⟩
      exact h.sublist ((List.eraseP_sublist s.entries).map Prod.fst)
    | none => rw [lru_getMut_none s _ hf]; exact h
  | peek k => exact h
  | contains k => exact h
  | remove k =>
    simp only [lruStep]
    cases hf : lruFind s k with
    | some p =>
      rw [lru_remove_found s _ _ hf]
      exact h.sublist ((List.eraseP_sublist s.entries).map Prod.fst)
    | none => rw [lru_remove_none s _ hf]; exact h
  | clear => simp [lruStep, LRUCache.clear]

theorem lruRun_nodup (s : LRUCache K V) (t : List (LRUOp K V))
    (h : (s.entries.map Prod.fst).Nodup) :
    ((lruRun s t).entries.map Prod.fst).Nodup := by
  induction t generalizing s with
  | nil => exact h
  | cons op t ih => exact ih _ (lruStep_nodup s op h)

end LRULemmas

section EventTimes

variable {S O : Type}

/-- Position (1-based) of the last operation of the trace for which the
given event predicate fires, threading the state through the trace; acc
is the latest position seen so far and i the position of the next
operation. -/
def lastEvtAux (step : S → O → S) (evt : S → O → Bool) :
    S → List O → Nat → Nat → Nat
  | _, [], _, acc => acc
  | s, op :: t, i, acc =>
      lastEvtAux step evt (step s op) t (i + 1) (if evt s op then i else acc)

theorem lastEvtAux_append (step : S → O → S) (evt : S → O → Bool)
    (s : S) (t : List O) (op : O) (i acc : Nat) :
    lastEvtAux step evt s (t ++ [op]) i acc =
      if evt (t.foldl step s) op then i + t.length
      else lastEvtAux step evt s t i acc := by
  induction t generalizing s i acc with
  | nil => simp [lastEvtAux]
  | cons op2 t ih =>
    simp only [List.cons_append, lastEvtAux, List.foldl_cons, List.append_eq]
    rw [ih]
    by_cases he : evt (t.foldl step (step s op2)) op
    · simp [he, Nat.add_assoc, Nat.add_comm 1]
    · simp [he]

theorem lastEvtAux_lt (step : S → O → S) (evt : S → O → Bool)
    (s : S) (t : List O) (i acc m : Nat) (hacc : acc < m)
    (hi : i + t.length ≤ m) : lastEvtAux step evt s t i acc < m := by
  induction t generalizing s i acc with
  | nil => exact hacc
  | cons op t ih =>
    simp only [lastEvtAux]
    refine ih (step s op) (i + 1) _ ?_ (by simp at hi; omega)
    by_cases he : evt s op
    · simp only [if_pos he]
      simp at hi
      omega
    · simpa [he] using hacc

end EventTimes

section LRURecency

variable {K V : Type} [DecidableEq K]

/-- Does the operation touch the key, in the sense of the specification
sentence about eviction: a put of the key, or a get that hits the key.
(The recency claim of the spec is phrased over get and put only.) -/
def lruTouches (s : LRUCache K V) (op : LRUOp K V) (k : K) : Bool :=
  match op with
  | .put k2 _ => k2 = k
  | .get k2 => k2 = k && s.contains k2
  | _ => false

/-- 1-based position of the last get/put that touched the key while it
was live, 0 if never touched. -/
def lruLastTouch (cap : Nat) (t : List (LRUOp K V)) (k : K) : Nat :=
  lastEvtAux lruStep (fun s op => lruTouches s op k) (lruNew cap) t 1 0

/-- Is the operation a get_mut? -/
def lruIsMut : LRUOp K V → Bool
  | .getMut _ => true
  | _ => false

/-- A trace that avoids get_mut (the claim about recency speaks about
touches by get and put only). -/
abbrev LruNoMut (t : List (LRUOp K V)) : Prop :=
  ∀ op ∈ t, lruIsMut op = false

theorem lruLastTouch_append (cap : Nat) (t : List (LRUOp K V))
    (op : LRUOp K V) (k : K) :
    lruLastTouch cap (t ++ [op]) k =
      if lruTouches (lruRun (lruNew cap) t) op k then t.length + 1
      else lruLastTouch cap t k := by
  unfold lruLastTouch
  rw [lastEvtAux_append]
  rw [Nat.add_comm 1 t.length]
  rfl

theorem lruLastTouch_le (cap : Nat) (t : List (LRUOp K V)) (k : K) :
    lruLastTouch cap t k ≤ t.length := by
  have := lastEvtAux_lt lruStep (fun s op => lruTouches s op k)
    (lruNew cap) t 1 0 (t.length + 1) (by omega) (by omega)
  unfold lruLastTouch
  omega

/-- Transport of the recency ordering across an operation that touches
none of the listed keys. -/
theorem lru_pairwise_untouched (cap : Nat) (t : List (LRUOp K V))
    (op : LRUOp K V) (l : List K)
    (hpair : l.Pairwise
      (fun a b => lruLastTouch cap t b < lruLastTouch cap t a))
    (hnt : ∀ b ∈ l, lruTouches (lruRun (lruNew cap) t) op b = false) :
    l.Pairwise (fun a b => lruLastTouch cap (t ++ [op]) b <
      lruLastTouch cap (t ++ [op]) a) := by
  refine hpair.imp_of_mem ?_
  intro a b ha hb hr
  rw [lruLastTouch_append, lruLastTouch_append, hnt a ha, hnt b hb]
  simpa using hr

/-- Recency ordering for a list headed by the key the operation touched. -/
theorem lru_pairwise_touched_cons (cap : Nat) (t : List (LRUOp K V))
    (op : LRUOp K V) (k : K) (l : List K)
    (hpair : l.Pairwise
      (fun a b => lruLastTouch cap t b < lruLastTouch cap t a))
    (hnt : ∀ b ∈ l, lruTouches (lruRun (lruNew cap) t) op b = false)
    (htk : lruTouches (lruRun (lruNew cap) t) op k = true) :
    (k :: l).Pairwise (fun a b => lruLastTouch cap (t ++ [op]) b <
      lruLastTouch cap (t ++ [op]) a) := by
  refine List.Pairwise.cons ?_ (lru_pairwise_untouched cap t op l hpair hnt)
  intro b hb
  rw [lruLastTouch_append, lruLastTouch_append, hnt b hb, htk]
  have := lruLastTouch_le cap t b
  simpa using Nat.lt_succ_of_le this

/-- Core recency invariant: along any get_mut-free trace from a fresh
cache, the entry list is ordered by strictly decreasing last touch. -/
theorem lru_recency_inv (cap : Nat) (t : List (LRUOp K V))
    (hmut : LruNoMut t) :
    ((lruRun (lruNew cap) t).entries.map Prod.fst).Pairwise
      (fun a b => lruLastTouch cap t b < lruLastTouch cap t a) := by
  induction t using List.reverseRecOn with
  | nil => simp [lruRun, lruNew]
  | append_singleton t op ih =>
    have hmut' : LruNoMut t := fun op hop =>
      hmut op (List.mem_append_left _ hop)
    have hpair := ih hmut'
    set s := lruRun (lruNew cap) t with hs
    have hnd : (s.entries.map Prod.fst).Nodup :=
      lruRun_nodup _ _ (by simp [lruNew])
    have hrun : lruRun (lruNew cap) (t ++ [op]) = lruStep s op := by
      rw [lruRun_append]
      rfl
    rw [hrun]
    cases op with
    | getMut k =>
      have := hmut (LRUOp.getMut k) (List.mem_append_right t (by simp))
      simp [lruIsMut] at this
    | peek k =>
      exact lru_pairwise_untouched cap t _ _ hpair (fun b _ => rfl)
    | contains k =>
      exact lru_pairwise_untouched cap t _ _ hpair (fun b _ => rfl)
    | clear => simp [lruStep, LRUCache.clear]
    | remove k =>
      simp only [lruStep]
      cases hf : lruFind s k with
      | some p =>
        rw [lru_remove_found s _ _ hf]
        refine lru_pairwise_untouched cap t _ _
          (hpair.sublist ((List.eraseP_sublist s.entries).map Prod.fst))
          (fun b _ => rfl)
      | none =>
        rw [lru_remove_none s _ hf]
        exact lru_pairwise_untouched cap t _ _ hpair (fun b _ => rfl)
    | get k =>
      simp only [lruStep]
      cases hf : lruFind s k with
      | none =>
        rw [lru_get_none s _ hf]
        have hcont : s.contains k = false := by
          simp [LRUCache.contains, hf]
        refine lru_pairwise_untouched cap t _ _ hpair ?_
        intro b _
        simp [lruTouches, ← hs, hcont]
      | some p =>
        rw [lru_get_found s _ _ hf]
        obtain ⟨hmem, hkey, _⟩ := lruFind_some_facts s k p hf
        have hcont : s.contains k = true := by
          simp [LRUCache.contains, hf]
        simp only [List.map_cons, hkey]
        refine lru_pairwise_touched_cons cap t _ k _
          (hpair.sublist ((List.eraseP_sublist s.entries).map Prod.fst)) ?_ ?_
        · intro b hb
          have hbne : b ≠ k := by
            intro hc
            subst hc
            exact not_mem_keys_eraseP s.entries b hnd hb
          simp [lruTouches, ← hs, Ne.symm hbne]
        · simp [lruTouches, ← hs, hcont]
    | put k v =>
      have htk : lruTouches s (LRUOp.put k v) k = true := by
        simp [lruTouches]
      simp only [lruStep]
      cases hf : lruFind s k with
      | some p =>
        rw [lru_put_found s _ _ _ hf]
        simp only [List.map_cons]
        refine lru_pairwise_touched_cons cap t _ k _
          (hpair.sublist ((List.eraseP_sublist s.entries).map Prod.fst)) ?_ ?_
        · intro b hb
          have hbne : b ≠ k := by
            intro hc
            subst hc
            exact not_mem_keys_eraseP s.entries b hnd hb
          simp [lruTouches, ← hs, Ne.symm hbne]
        · simpa [← hs] using htk
      | none =>
        have hknotin : k ∉ s.entries.map Prod.fst :=
          findk_none_not_mem s.entries k hf
        have hpaircons : (((k, v) :: s.entries).map Prod.fst).Pairwise
            (fun a b => lruLastTouch cap (t ++ [LRUOp.put k v]) b <
              lruLastTouch cap (t ++ [LRUOp.put k v]) a) := by
          simp only [List.map_cons]
          refine lru_pairwise_touched_cons cap t _ k _ hpair ?_ ?_
          · intro b hb
            have hbne : b ≠ k := fun hc => hknotin (hc ▸ hb)
            simp [lruTouches, Ne.symm hbne]
          · simpa [← hs] using htk
        by_cases hc : s.entries.length + 1 > s.capacity
        · rw [lru_put_evict s _ _ hf hc]
          exact hpaircons.sublist ((List.dropLast_sublist _).map Prod.fst)
        · rw [lru_put_room s _ _ hf hc]
          exact hpaircons


end LRURecency

section LRUValues

variable {K V : Type} [DecidableEq K]

theorem lru_contains_iff_peek (s : LRUCache K V) (k : K) :
    s.contains k = (s.peek k).isSome := by
  unfold LRUCache.contains LRUCache.peek
  cases lruFind s k <;> rfl

/-- A get hit relocates the node but changes no stored value. -/
theorem lru_get_peek (s : LRUCache K V) (k j : K) :
    ((s.get k).2).peek j = s.peek j := by
  cases hf : lruFind s k with
  | none => rw [lru_get_none s _ hf]
  | some p =>
    obtain ⟨hmem, hkey, _⟩ := lruFind_some_facts s k p hf
    rw [lru_get_found s _ _ hf]
    have hf' : s.entries.find? (fun q => decide (q.1 = k)) = some p := hf
    unfold LRUCache.peek lruFind
    by_cases hj : j = k
    · subst hj
      have h1 : (p :: s.entries.eraseP (fun q => q.1 = j)).find?
          (fun q => q.1 = j) = some p := by
        rw [List.find?_cons_of_pos]
        simp [hkey]
      rw [h1, hf']
    · have h1 : (p :: s.entries.eraseP (fun q => q.1 = k)).find?
          (fun q => q.1 = j) =
          (s.entries.eraseP (fun q => q.1 = k)).find? (fun q => q.1 = j) := by
        rw [List.find?_cons_of_neg]
        simp [hkey, Ne.symm hj]
      rw [h1, findk_eraseP_ne s.entries k j hj]

theorem lru_getMut_peek (s : LRUCache K V) (k j : K) :
    ((s.getMut k).2).peek j = s.peek j := by
  have hsame : s.getMut k = s.get k := by
    unfold LRUCache.getMut LRUCache.get
    rfl
  rw [hsame]
  exact lru_get_peek s k j

/-- After a put, the written key reads back the written value (the
capacity-zero degenerate state is excluded; the public constructor
guarantees it). -/
theorem lru_put_peek_self (s : LRUCache K V) (k : K) (v : V)
    (hcap : 0 < s.capacity) : ((s.put k v).2).peek k = some v := by
  cases hf : lruFind s k with
  | some p =>
    rw [lru_put_found s _ _ _ hf]
    unfold LRUCache.peek lruFind
    rw [findk_cons_self]
    rfl
  | none =>
    by_cases hc : s.entries.length + 1 > s.capacity
    · have hne : s.entries ≠ [] := by
        intro hnil
        rw [hnil] at hc
        simp at hc
        omega
      rw [lru_put_evict s _ _ hf hc]
      unfold LRUCache.peek lruFind
      have hd : ((k, v) :: s.entries).dropLast =
          (k, v) :: s.entries.dropLast := by
        cases hes : s.entries with
        | nil => exact absurd hes hne
        | cons e es => simp
      rw [hd, findk_cons_self]
      rfl
    · rw [lru_put_room s _ _ hf hc]
      unfold LRUCache.peek lruFind
      rw [findk_cons_self]
      rfl

/-- After a put of another key, a still-present key reads its old value. -/
theorem lru_put_peek_other (s : LRUCache K V) (k : K) (v : V) (j : K)
    (hnd : (s.entries.map Prod.fst).Nodup) (hj : j ≠ k) (x : V)
    (hx : ((s.put k v).2).peek j = some x) : s.peek j = some x := by
  cases hf : lruFind s k with
  | some p =>
    rw [lru_put_found s _ _ _ hf] at hx
    unfold LRUCache.peek lruFind at hx ⊢
    rw [findk_cons_ne _ _ _ _ (Ne.symm hj), findk_eraseP_ne _ _ _ hj] at hx
    exact hx
  | none =>
    have hknotin : k ∉ s.entries.map Prod.fst :=
      findk_none_not_mem s.entries k hf
    by_cases hc : s.entries.length + 1 > s.capacity
    · rw [lru_put_evict s _ _ hf hc] at hx
      unfold LRUCache.peek lruFind at hx ⊢
      simp only [Option.map_eq_some'] at hx
      obtain ⟨q, hq, hqx⟩ := hx
      have hndcons : (((k, v) :: s.entries).map Prod.fst).Nodup := by
        simp only [List.map_cons, List.nodup_cons]
        exact ⟨hknotin, hnd⟩
      have h1 : ((k, v) :: s.entries).find? (fun p => p.1 = j) = some q :=
        findk_sublist_nodup _ _ j q (List.dropLast_sublist _) hndcons hq
      rw [findk_cons_ne _ _ _ _ (Ne.symm hj)] at h1
      rw [h1]
      simp [hqx]
    · rw [lru_put_room s _ _ hf hc] at hx
      unfold LRUCache.peek lruFind at hx ⊢
      rw [findk_cons_ne _ _ _ _ (Ne.symm hj)] at hx
      exact hx

theorem lru_remove_peek_self (s : LRUCache K V) (k : K)
    (hnd : (s.entries.map Prod.fst).Nodup) :
    ((s.remove k).2).peek k = none := by
  cases hf : lruFind s k with
  | some p =>
    rw [lru_remove_found s _ _ hf]
    unfold LRUCache.peek lruFind
    have := not_mem_keys_eraseP s.entries k hnd
    rw [List.find?_eq_none.mpr]
    · rfl
    · intro x hxmem
      simp only [decide_eq_true_eq]
      intro hxk
      exact this (List.mem_map.mpr ⟨x, hxmem, hxk⟩)
  | none =>
    rw [lru_remove_none s _ hf]
    unfold LRUCache.peek
    rw [hf]
    rfl

theorem lru_remove_peek_other (s : LRUCache K V) (k j : K) (hj : j ≠ k) :
    ((s.remove k).2).peek j = s.peek j := by
  cases hf : lruFind s k with
  | some p =>
    rw [lru_remove_found s _ _ hf]
    unfold LRUCache.peek lruFind
    rw [findk_eraseP_ne _ _ _ hj]
  | none => rw [lru_remove_none s _ hf]

/-- The value the trace last stored for the key, none when the key is
absent (never stored, removed, or evicted). -/
def lruStoredAux (s : LRUCache K V) (t : List (LRUOp K V)) (k : K)
    (acc : Option V) : Option V :=
  match t with
  | [] => acc
  | op :: rest =>
      lruStoredAux (lruStep s op) rest k
        (if (lruStep s op).contains k then
          match op with
          | .put k2 v => if k2 = k then some v else acc
          | _ => acc
        else none)

theorem lruStored_inv (s : LRUCache K V) (t : List (LRUOp K V)) (k : K)
    (acc : Option V) (hcap : 0 < s.capacity)
    (hnd : (s.entries.map Prod.fst).Nodup) (hacc : s.peek k = acc) :
    (lruRun s t).peek k = lruStoredAux s t k acc := by
  induction t generalizing s acc with
  | nil => exact hacc
  | cons op rest ih =>
    rw [lruRun_cons]
    unfold lruStoredAux
    refine ih (lruStep s op) _
      (by rw [lruStep_capacity]; exact hcap) (lruStep_nodup s op hnd) ?_
    by_cases hpresent : (lruStep s op).contains k
    · rw [if_pos hpresent]
      rw [lru_contains_iff_peek] at hpresent
      obtain ⟨x, hx⟩ := Option.isSome_iff_exists.mp hpresent
      cases op with
      | put k2 v =>
        by_cases hk2 : k2 = k
        · subst hk2
          simp only [if_pos rfl]
          exact lru_put_peek_self s k2 v hcap
        · simp only [if_neg hk2]
          have := lru_put_peek_other s k2 v k hnd (Ne.symm hk2) x hx
          rw [← hacc, hx]
          exact this.symm
      | get k2 =>
        rw [show lruStep s (LRUOp.get k2) = (s.get k2).2 from rfl,
          lru_get_peek s k2 k, hacc]
      | getMut k2 =>
        rw [show lruStep s (LRUOp.getMut k2) = (s.getMut k2).2 from rfl,
          lru_getMut_peek s k2 k, hacc]
      | peek k2 => exact hacc
      | contains k2 => exact hacc
      | remove k2 =>
        by_cases hk2 : k2 = k
        · subst hk2
          rw [show lruStep s (LRUOp.remove k2) = (s.remove k2).2 from rfl,
            lru_remove_peek_self s k2 hnd] at hx
          exact absurd hx (by simp)
        · rw [show lruStep s (LRUOp.remove k2) = (s.remove k2).2 from rfl,
            lru_remove_peek_other s k2 k (Ne.symm hk2), hacc]
      | clear =>
        simp [lruStep, LRUCache.clear, LRUCache.peek, lruFind] at hx
    · rw [if_neg hpresent]
      rw [lru_contains_iff_peek] at hpresent
      cases hpk : (lruStep s op).peek k with
      | none => rfl
      | some x => rw [hpk] at hpresent; simp at hpresent

end LRUValues

section LFU

variable {K V : Type} [DecidableEq K]

/-- State of the LFU cache of lfu_cache.rs.  cache maps key to
(value, frequency); freq_to_keys maps a frequency to the keys at that
frequency in insertion order, oldest first; key_to_pos maps a key to its
position in its frequency bucket. -/
structure LFUCache (K V : Type) where
  capacity : Nat
  min_freq : Nat
  cache : List (K × V × Nat)
  freq_to_keys : Nat → List K
  key_to_pos : K → Option Nat

/-- LFUCache.new; the panic on zero capacity is embedded as none. -/
def LFUCache.mk? (capacity : Nat) : Option (LFUCache K V) :=
  if capacity > 0 then
    some ⟨capacity, 0, [], fun _ => [], fun _ => none⟩
  else none

/-- The cache state right after a successful LFUCache.new(capacity). -/
def lfuNew (capacity : Nat) : LFUCache K V :=
  ⟨capacity, 0, [], fun _ => [], fun _ => none⟩

/-- LFUCache.len. -/
def LFUCache.len (s : LFUCache K V) : Nat :=
  s.cache.length

/-- LFUCache.is_empty. -/
def LFUCache.isEmpty (s : LFUCache K V) : Bool :=
  s.cache.isEmpty

/-- LFUCache.contains. -/
def LFUCache.contains (s : LFUCache K V) (k : K) : Bool :=
  (alookup s.cache k).isSome

/-- LFUCache.frequency. -/
def LFUCache.frequency (s : LFUCache K V) (k : K) : Option Nat :=
  (alookup s.cache k).map Prod.snd

/-- remove_from_freq_list: looks the key position up in key_to_pos,
checks it indexes this key inside the bucket of the given frequency,
removes it there and repairs the positions of the keys behind it. -/
def removeFromFreqList (s : LFUCache K V) (k : K) (freq : Nat) :
    LFUCache K V :=
  let keys := s.freq_to_keys freq
  match s.key_to_pos k with
  | none => s
  | some pos =>
      if keys[pos]? = some k then
        let keys2 := keys.eraseIdx pos
        { s with
          freq_to_keys := fupd s.freq_to_keys freq keys2,
          key_to_pos := setPositions s.key_to_pos (keys2.drop pos) pos }
      else s

/-- increment_frequency: bumps the stored frequency, removes the key
from its old bucket, appends it to the bucket one higher, records the
new position, and advances min_freq when the old minimum bucket just
became empty.  The source unwraps the cache entry; the none branch is
unreachable from the public operations. -/
def incrementFrequency (s : LFUCache K V) (k : K) : LFUCache K V :=
  match alookup s.cache k with
  | none => s
  | some (v, oldFreq) =>
      let newFreq := oldFreq + 1
      let s1 : LFUCache K V := { s with cache := aset s.cache k (v, newFreq) }
      let s2 := removeFromFreqList s1 k oldFreq
      let bucket := s2.freq_to_keys newFreq
      let s3 : LFUCache K V :=
        { s2 with
          freq_to_keys := fupd s2.freq_to_keys newFreq (bucket ++ [k]),
          key_to_pos := fupd s2.key_to_pos k (some bucket.length) }
      if oldFreq = s3.min_freq ∧ (s3.freq_to_keys oldFreq).isEmpty then
        { s3 with min_freq := newFreq }
      else s3

/-- evict: removes the first key of the minimum-frequency bucket,
repairs the positions of the remaining keys of that bucket, and deletes
the evicted key from the cache map and the position index. -/
def LFUCache.evict (s : LFUCache K V) : LFUCache K V :=
  match s.freq_to_keys s.min_freq with
  | [] => s
  | evictKey :: rest =>
      let s1 : LFUCache K V :=
        { s with
          freq_to_keys := fupd s.freq_to_keys s.min_freq rest,
          key_to_pos := setPositions s.key_to_pos rest 0 }
      { s1 with
        cache := aerase s1.cache evictKey,
        key_to_pos := fupd s1.key_to_pos evictKey none }

/-- LFUCache.get: on a hit increments the frequency and reads the value
back from the updated map, exactly as the source does. -/
def LFUCache.get (s : LFUCache K V) (k : K) : Option V × LFUCache K V :=
  if (alookup s.cache k).isSome then
    let s2 := incrementFrequency s k
    ((alookup s2.cache k).map Prod.fst, s2)
  else (none, s)

/-- LFUCache.get_mut: same bookkeeping as get; the mutable borrow is
embedded as the value read. -/
def LFUCache.getMut (s : LFUCache K V) (k : K) : Option V × LFUCache K V :=
  if (alookup s.cache k).isSome then
    let s2 := incrementFrequency s k
    ((alookup s2.cache k).map Prod.fst, s2)
  else (none, s)

/-- LFUCache.put: a guard returns on capacity zero; an existing key has
its value overwritten and its frequency incremented; a new key first
triggers eviction if the cache is full, then is inserted with
frequency 1, appended to bucket 1, indexed, and min_freq is reset. -/
def LFUCache.put (s : LFUCache K V) (k : K) (v : V) : LFUCache K V :=
  if s.capacity = 0 then s
  else
    match alookup s.cache k with
    | some (_, f) =>
        incrementFrequency { s with cache := aset s.cache k (v, f) } k
    | none =>
        let s1 := if s.cache.length ≥ s.capacity then s.evict else s
        let bucket1 := s1.freq_to_keys 1
        { s1 with
          cache := aset s1.cache k (v, 1),
          freq_to_keys := fupd s1.freq_to_keys 1 (bucket1 ++ [k]),
          key_to_pos := fupd s1.key_to_pos k (some bucket1.length),
          min_freq := 1 }

/-- LFUCache.remove: drops the entry from the cache map, removes it
from its frequency bucket, and deletes its position index entry. -/
def LFUCache.remove (s : LFUCache K V) (k : K) : Option V × LFUCache K V :=
  match alookup s.cache k with
  | none => (none, s)
  | some (v, f) =>
      let s1 : LFUCache K V := { s with cache := aerase s.cache k }
      let s2 := removeFromFreqList s1 k f
      (some v, { s2 with key_to_pos := fupd s2.key_to_pos k none })

/-- LFUCache.clear. -/
def LFUCache.clear (s : LFUCache K V) : LFUCache K V :=
  ⟨s.capacity, 0, [], fun _ => [], fun _ => none⟩

/-- One public operation of the LFU cache. -/
inductive LFUOp (K V : Type) where
  | put (k : K) (v : V)
  | get (k : K)
  | getMut (k : K)
  | contains (k : K)
  | remove (k : K)
  | frequency (k : K)
  | clear
deriving DecidableEq

/-- The state transition of one operation (results discarded). -/
def lfuStep (s : LFUCache K V) : LFUOp K V → LFUCache K V
  | .put k v => s.put k v
  | .get k => (s.get k).2
  | .getMut k => (s.getMut k).2
  | .contains _ => s
  | .remove k => (s.remove k).2
  | .frequency _ => s
  | .clear => s.clear

/-- Running a finite sequence of operations. -/
def lfuRun (s : LFUCache K V) (t : List (LFUOp K V)) : LFUCache K V :=
  t.foldl lfuStep s

@[simp] theorem lfuRun_nil (s : LFUCache K V) : lfuRun s [] = s := rfl

@[simp] theorem lfuRun_cons (s : LFUCache K V) (op : LFUOp K V)
    (t : List (LFUOp K V)) : lfuRun s (op :: t) = lfuRun (lfuStep s op) t := rfl

theorem lfuRun_append (s : LFUCache K V) (t₁ t₂ : List (LFUOp K V)) :
    lfuRun s (t₁ ++ t₂) = lfuRun (lfuRun s t₁) t₂ :=
  List.foldl_append ..

end LFU

section LFUWfDef

variable {K V : Type} [DecidableEq K]

theorem some_pair_inj {A B : Type} {a c : A} {b d : B}
    (h : (some (a, b) : Option (A × B)) = some (c, d)) : a = c ∧ b = d := by
  simp only [Option.some.injEq, Prod.mk.injEq] at h
  exact h

/-- Well-formedness of an LFU state, tying the three structures
together.  All states reachable from a fresh positive-capacity cache
satisfy it. -/
structure LFUWf (s : LFUCache K V) : Prop where
  cap_pos : 0 < s.capacity
  nodup_cache : (s.cache.map Prod.fst).Nodup
  freq_pos : ∀ k v f, alookup s.cache k = some (v, f) → 1 ≤ f
  mem_bucket : ∀ k v f, alookup s.cache k = some (v, f) →
    k ∈ s.freq_to_keys f
  bucket_sound : ∀ f k, k ∈ s.freq_to_keys f →
    ∃ v, alookup s.cache k = some (v, f)
  bucket_nodup : ∀ f, (s.freq_to_keys f).Nodup
  pos_eq : ∀ k v f, alookup s.cache k = some (v, f) →
    s.key_to_pos k = some (pidx k (s.freq_to_keys f))
  len_le : s.cache.length ≤ s.capacity
  min_ok : s.capacity ≤ s.cache.length →
    s.freq_to_keys s.min_freq ≠ [] ∧
      ∀ k v f, alookup s.cache k = some (v, f) → s.min_freq ≤ f

theorem lfuNew_wf (cap : Nat) (hcap : 0 < cap) :
    LFUWf (lfuNew cap : LFUCache K V) := by
  refine ⟨hcap, by simp [lfuNew], ?_, ?_, ?_, ?_, ?_, ?_, ?_⟩ <;>
    simp [lfuNew]
  omega

/-- A key of the cache map sits in the bucket of its frequency; this
extracts the decomposition of that bucket around the key. -/
theorem lfuWf_decomp (s : LFUCache K V) (hwf : LFUWf s) (k : K) (v : V)
    (f : Nat) (hk : alookup s.cache k = some (v, f)) :
    ∃ l₁ l₂, s.freq_to_keys f = l₁ ++ k :: l₂ ∧
      s.key_to_pos k = some l₁.length ∧ k ∉ l₁ ∧ k ∉ l₂ := by
  have hmem := hwf.mem_bucket k v f hk
  obtain ⟨l₁, l₂, heq, hnm, hp⟩ := pidx_decomp k _ hmem
  have hnd := hwf.bucket_nodup f
  rw [heq] at hnd
  have hk2 : k ∉ l₂ := by
    rw [List.nodup_append] at hnd
    have := hnd.2.1
    simp only [List.nodup_cons] at this
    exact this.1
  refine ⟨l₁, l₂, heq, ?_, hnm, hk2⟩
  rw [hwf.pos_eq k v f hk, hp]

/-- A key can be a member of the bucket of one frequency only. -/
theorem lfuWf_bucket_unique (s : LFUCache K V) (hwf : LFUWf s) (k : K)
    (f g : Nat) (hf : k ∈ s.freq_to_keys f) (hg : k ∈ s.freq_to_keys g) :
    f = g := by
  obtain ⟨v, hv⟩ := hwf.bucket_sound f k hf
  obtain ⟨w, hw⟩ := hwf.bucket_sound g k hg
  rw [hv] at hw
  exact (some_pair_inj hw).2

/-- A key absent from the cache map is in no bucket. -/
theorem lfuWf_absent_no_bucket (s : LFUCache K V) (hwf : LFUWf s) (k : K)
    (hk : alookup s.cache k = none) (f : Nat) : k ∉ s.freq_to_keys f := by
  intro hmem
  obtain ⟨v, hv⟩ := hwf.bucket_sound f k hmem
  rw [hk] at hv
  exact Option.noConfusion hv

/-- Explicit form of remove_from_freq_list when the position index is
consistent with the bucket. -/
theorem removeFromFreqList_eq (s : LFUCache K V) (k : K) (f : Nat)
    (l₁ l₂ : List K) (hb : s.freq_to_keys f = l₁ ++ k :: l₂)
    (hp : s.key_to_pos k = some l₁.length) :
    removeFromFreqList s k f =
      { s with
        freq_to_keys := fupd s.freq_to_keys f (l₁ ++ l₂)
        key_to_pos := setPositions s.key_to_pos l₂ l₁.length } := by
  unfold removeFromFreqList
  rw [hp]
  simp only [hb, getElem?_decomp, if_pos rfl, eraseIdx_decomp, drop_decomp,
    if_true]

end LFUWfDef

section LFUIncr

variable {K V : Type} [DecidableEq K]

/-- Explicit form of increment_frequency on a well-indexed state. -/
theorem incrementFrequency_eq (s : LFUCache K V) (k : K) (v : V) (f : Nat)
    (l₁ l₂ : List K)
    (hk : alookup s.cache k = some (v, f))
    (hb : s.freq_to_keys f = l₁ ++ k :: l₂)
    (hp : s.key_to_pos k = some l₁.length) :
    incrementFrequency s k =
      { capacity := s.capacity
        min_freq :=
          if f = s.min_freq ∧ l₁ ++ l₂ = [] then f + 1 else s.min_freq
        cache := aset s.cache k (v, f + 1)
        freq_to_keys := fupd (fupd s.freq_to_keys f (l₁ ++ l₂)) (f + 1)
          (s.freq_to_keys (f + 1) ++ [k])
        key_to_pos := fupd (setPositions s.key_to_pos l₂ l₁.length) k
          (some (s.freq_to_keys (f + 1)).length) } := by
  have hne : f + 1 ≠ f := by omega
  have hne2 : f ≠ f + 1 := by omega
  unfold incrementFrequency
  rw [hk]
  have h1 := removeFromFreqList_eq
    { s with cache := aset s.cache k (v, f + 1) } k f l₁ l₂ hb hp
  simp only [h1, fupd_ne _ _ _ _ hne, fupd_ne _ _ _ _ hne2, fupd_self,
    List.isEmpty_iff]
  split <;> rfl

/-- increment_frequency preserves well-formedness. -/
theorem incrementFrequency_wf (s : LFUCache K V) (k : K) (hwf : LFUWf s) :
    LFUWf (incrementFrequency s k) := by
  cases hk : alookup s.cache k with
  | none =>
    unfold incrementFrequency
    rw [hk]
    exact hwf
  | some vf =>
    obtain ⟨v, f⟩ := vf
    obtain ⟨l₁, l₂, hb, hp, hkl1, hkl2⟩ := lfuWf_decomp s hwf k v f hk
    rw [incrementFrequency_eq s k v f l₁ l₂ hk hb hp]
    have hbndf : (l₁ ++ k :: l₂).Nodup := hb ▸ hwf.bucket_nodup f
    have hl2nd : l₂.Nodup := by
      rw [List.nodup_append, List.nodup_cons] at hbndf
      exact hbndf.2.1.2
    have hdisj : ∀ j ∈ l₂, j ∉ l₁ := by
      intro j hj2 hj1
      rw [List.nodup_append] at hbndf
      exact hbndf.2.2 hj1 (by simp [hj2])
    have hkB : k ∉ s.freq_to_keys (f + 1) := by
      intro hmem
      obtain ⟨w, hw⟩ := hwf.bucket_sound (f + 1) k hmem
      rw [hk] at hw
      have := (some_pair_inj hw).2
      omega
    have hmem_l1 : ∀ j ∈ l₁, ∃ w, alookup s.cache j = some (w, f) := by
      intro j hj
      exact hwf.bucket_sound f j (by rw [hb]; exact List.mem_append_left _ hj)
    have hmem_l2 : ∀ j ∈ l₂, ∃ w, alookup s.cache j = some (w, f) := by
      intro j hj
      exact hwf.bucket_sound f j (by rw [hb]; simp [hj])
    have hl1ne : ∀ j ∈ l₁, j ≠ k := fun j hj hc => hkl1 (hc ▸ hj)
    have hl2ne : ∀ j ∈ l₂, j ≠ k := fun j hj hc => hkl2 (hc ▸ hj)
    have hBne : ∀ j ∈ s.freq_to_keys (f + 1), j ≠ k :=
      fun j hj hc => hkB (hc ▸ hj)
    have hL : ∀ j, alookup (aset s.cache k (v, f + 1)) j =
        if j = k then some (v, f + 1) else alookup s.cache j := by
      intro j
      by_cases hj : j = k
      · subst hj
        rw [if_pos rfl, alookup_aset_self]
      · rw [if_neg hj, alookup_aset_ne _ _ _ _ hj]
    have hmeml2_f : ∀ j w g, alookup s.cache j = some (w, g) → g ≠ f →
        j ∉ l₂ := by
      intro j w g hg hgf hj2
      obtain ⟨w2, hw2⟩ := hmem_l2 j hj2
      rw [hg] at hw2
      exact hgf (some_pair_inj hw2).2
    have hBmem : ∀ j w g, alookup s.cache j = some (w, g) → g ≠ f + 1 →
        j ∉ s.freq_to_keys (f + 1) := by
      intro j w g hg hgf hjB
      obtain ⟨w2, hw2⟩ := hwf.bucket_sound (f + 1) j hjB
      rw [hg] at hw2
      exact hgf (some_pair_inj hw2).2
    refine ⟨hwf.cap_pos, nodup_keys_aset _ _ _ hwf.nodup_cache,
      ?_, ?_, ?_, ?_, ?_, ?_, ?_⟩
    · -- freq_pos
      intro j w g hg
      rw [hL j] at hg
      by_cases hj : j = k
      · rw [if_pos hj] at hg
        have := (some_pair_inj hg).2
        omega
      · rw [if_neg hj] at hg
        exact hwf.freq_pos j w g hg
    · -- mem_bucket
      intro j w g hg
      rw [hL j] at hg
      by_cases hj : j = k
      · subst hj
        rw [if_pos rfl] at hg
        have hgf := (some_pair_inj hg).2
        subst hgf
        simp only [fupd_self]
        simp
      · rw [if_neg hj] at hg
        have hmem := hwf.mem_bucket j w g hg
        by_cases hg1 : g = f + 1
        · subst hg1
          simp only [fupd_self]
          exact List.mem_append_left _ hmem
        · by_cases hgf : g = f
          · subst hgf
            simp only [fupd_ne _ _ _ _ hg1, fupd_self]
            rw [hb] at hmem
            rcases List.mem_append.mp hmem with h1 | h1
            · exact List.mem_append_left _ h1
            · rcases List.mem_cons.mp h1 with h2 | h2
              · exact absurd h2 hj
              · exact List.mem_append_right _ h2
          · simp only [fupd_ne _ _ _ _ hg1, fupd_ne _ _ _ _ hgf]
            exact hmem
    · -- bucket_sound
      intro g j hj
      by_cases hg1 : g = f + 1
      · subst hg1
        simp only [fupd_self] at hj
        rcases List.mem_append.mp hj with h1 | h1
        · obtain ⟨w, hw⟩ := hwf.bucket_sound (f + 1) j h1
          refine ⟨w, ?_⟩
          rw [hL j, if_neg (hBne j h1)]
          exact hw
        · have hjk : j = k := by simpa using h1
          subst hjk
          exact ⟨v, by rw [hL j, if_pos rfl]⟩
      · by_cases hgf : g = f
        · subst hgf
          simp only [fupd_ne _ _ _ _ hg1, fupd_self] at hj
          rcases List.mem_append.mp hj with h1 | h1
          · obtain ⟨w, hw⟩ := hmem_l1 j h1
            exact ⟨w, by rw [hL j, if_neg (hl1ne j h1)]; exact hw⟩
          · obtain ⟨w, hw⟩ := hmem_l2 j h1
            exact ⟨w, by rw [hL j, if_neg (hl2ne j h1)]; exact hw⟩
        · simp only [fupd_ne _ _ _ _ hg1, fupd_ne _ _ _ _ hgf] at hj
          obtain ⟨w, hw⟩ := hwf.bucket_sound g j hj
          have hjk : j ≠ k := by
            intro hc
            subst hc
            rw [hk] at hw
            exact hgf (some_pair_inj hw).2.symm
          exact ⟨w, by rw [hL j, if_neg hjk]; exact hw⟩
    · -- bucket_nodup
      intro g
      by_cases hg1 : g = f + 1
      · subst hg1
        simp only [fupd_self]
        rw [List.nodup_append]
        refine ⟨hwf.bucket_nodup (f + 1), List.nodup_singleton k, ?_⟩
        intro a ha ha2
        have : a = k := by simpa using ha2
        exact hBne a ha this
      · by_cases hgf : g = f
        · subst hgf
          simp only [fupd_ne _ _ _ _ hg1, fupd_self]
          exact hbndf.sublist ((List.sublist_cons_self k l₂).append_left l₁)
        · simp only [fupd_ne _ _ _ _ hg1, fupd_ne _ _ _ _ hgf]
          exact hwf.bucket_nodup g
    · -- pos_eq
      intro j w g hg
      rw [hL j] at hg
      by_cases hj : j = k
      · subst hj
        rw [if_pos rfl] at hg
        obtain ⟨hw, hgf⟩ := some_pair_inj hg
        subst hgf
        simp only [fupd_self]
        rw [pidx_of_decomp _ _ _ hkB]
      · rw [if_neg hj] at hg
        simp only [fupd_ne _ _ _ _ hj]
        by_cases hg1 : g = f + 1
        · subst hg1
          have hmem : j ∈ s.freq_to_keys (f + 1) := hwf.mem_bucket j w _ hg
          have hj2 : j ∉ l₂ := hmeml2_f j w _ hg (by omega)
          rw [setPositions_not_mem _ _ _ _ hj2,
            hwf.pos_eq j w _ hg]
          simp only [fupd_self]
          rw [pidx_append_left j _ _ hmem]
        · by_cases hgf : g = f
          · subst hgf
            have hmem : j ∈ l₁ ++ k :: l₂ := hb ▸ hwf.mem_bucket j w _ hg
            simp only [fupd_ne _ _ _ _ hg1, fupd_self]
            rcases List.mem_append.mp hmem with h1 | h1
            · have hj2 : j ∉ l₂ := fun hc => hdisj j hc h1
              rw [setPositions_not_mem _ _ _ _ hj2, hwf.pos_eq j w _ hg, hb,
                pidx_append_left j _ _ h1, pidx_append_left j _ _ h1]
            · rcases List.mem_cons.mp h1 with h2 | h2
              · exact absurd h2 hj
              · have hj1 : j ∉ l₁ := hdisj j h2
                rw [setPositions_mem _ _ _ _ hl2nd h2,
                  pidx_append_right j _ _ hj1]
          · have hj2 : j ∉ l₂ := hmeml2_f j w _ hg hgf
            simp only [fupd_ne _ _ _ _ hg1, fupd_ne _ _ _ _ hgf]
            rw [setPositions_not_mem _ _ _ _ hj2, hwf.pos_eq j w _ hg]
    · -- len_le
      simp only [length_aset_of_lookup_some _ _ _ _ hk]
      exact hwf.len_le
    · -- min_ok
      intro hcap2
      simp only [length_aset_of_lookup_some _ _ _ _ hk] at hcap2
      obtain ⟨hmne, hmle⟩ := hwf.min_ok hcap2
      have hminf : s.min_freq ≤ f := hmle k v f hk
      by_cases hχ : f = s.min_freq ∧ l₁ ++ l₂ = []
      · simp only [if_pos hχ]
        constructor
        · simp only [fupd_self]
          simp
        · intro j w g hg
          rw [hL j] at hg
          by_cases hj : j = k
          · rw [if_pos hj] at hg
            have := (some_pair_inj hg).2
            omega
          · rw [if_neg hj] at hg
            have h1 : s.min_freq ≤ g := hmle j w g hg
            have hgf : g ≠ f := by
              intro hc
              subst hc
              have hmem : j ∈ l₁ ++ k :: l₂ := hb ▸ hwf.mem_bucket j w _ hg
              rcases List.mem_append.mp hmem with h2 | h2
              · rw [List.append_eq_nil] at hχ
                rw [hχ.2.1] at h2
                simp at h2
              · rcases List.mem_cons.mp h2 with h3 | h3
                · exact hj h3
                · rw [List.append_eq_nil] at hχ
                  rw [hχ.2.2] at h3
                  simp at h3
            omega
      · simp only [if_neg hχ]
        constructor
        · by_cases hm1 : s.min_freq = f + 1
          · rw [hm1]
            simp only [fupd_self]
            simp
          · by_cases hmf : s.min_freq = f
            · rw [hmf]
              rw [fupd_ne _ _ _ _ (show f ≠ f + 1 by omega), fupd_self]
              intro hc
              exact hχ ⟨hmf.symm, hc⟩
            · rw [fupd_ne _ _ _ _ hm1, fupd_ne _ _ _ _ hmf]
              exact hmne
        · intro j w g hg
          rw [hL j] at hg
          by_cases hj : j = k
          · rw [if_pos hj] at hg
            have := (some_pair_inj hg).2
            omega
          · rw [if_neg hj] at hg
            exact hmle j w g hg

end LFUIncr

section LFUEvict

variable {K V : Type} [DecidableEq K]

/-- Explicit form of evict when the minimum bucket is nonempty. -/
theorem evict_eq (s : LFUCache K V) (e : K) (rest : List K)
    (hb : s.freq_to_keys s.min_freq = e :: rest) :
    s.evict =
      { capacity := s.capacity
        min_freq := s.min_freq
        cache := aerase s.cache e
        freq_to_keys := fupd s.freq_to_keys s.min_freq rest
        key_to_pos := fupd (setPositions s.key_to_pos rest 0) e none } := by
  unfold LFUCache.evict
  rw [hb]

theorem evict_eq_nil (s : LFUCache K V)
    (hb : s.freq_to_keys s.min_freq = []) : s.evict = s := by
  unfold LFUCache.evict
  rw [hb]

/-- evict preserves well-formedness when the cache is at capacity (when
the minimum bucket is guaranteed nonempty and truly minimal). -/
theorem evict_wf (s : LFUCache K V) (hwf : LFUWf s)
    (hcap : s.capacity ≤ s.cache.length) : LFUWf s.evict := by
  obtain ⟨hmne, hmle⟩ := hwf.min_ok hcap
  cases hb : s.freq_to_keys s.min_freq with
  | nil => exact absurd hb hmne
  | cons e rest =>
    rw [evict_eq s e rest hb]
    obtain ⟨ve, hve⟩ := hwf.bucket_sound s.min_freq e (by rw [hb]; simp)
    have hbnd : (e :: rest).Nodup := hb ▸ hwf.bucket_nodup s.min_freq
    have herest : e ∉ rest := by
      rw [List.nodup_cons] at hbnd
      exact hbnd.1
    have hrestnd : rest.Nodup := by
      rw [List.nodup_cons] at hbnd
      exact hbnd.2
    have hrest_ne : ∀ j ∈ rest, j ≠ e := fun j hj hc => herest (hc ▸ hj)
    have hmem_rest : ∀ j ∈ rest, ∃ w, alookup s.cache j =
        some (w, s.min_freq) := by
      intro j hj
      exact hwf.bucket_sound s.min_freq j (by rw [hb]; simp [hj])
    have hL : ∀ j, j ≠ e → alookup (aerase s.cache e) j = alookup s.cache j :=
      fun j hj => alookup_aerase_ne _ _ _ hj
    have hLe : alookup (aerase s.cache e) e = none :=
      alookup_aerase_self _ _ hwf.nodup_cache
    have hnotmin : ∀ j w g, alookup s.cache j = some (w, g) →
        g ≠ s.min_freq → j ∉ (e :: rest) := by
      intro j w g hg hgm hjm
      obtain ⟨w2, hw2⟩ := hwf.bucket_sound s.min_freq j (hb ▸ hjm)
      rw [hg] at hw2
      exact hgm (some_pair_inj hw2).2
    refine ⟨hwf.cap_pos, nodup_keys_aerase _ _ hwf.nodup_cache,
      ?_, ?_, ?_, ?_, ?_, ?_, ?_⟩
    · -- freq_pos
      intro j w g hg
      by_cases hj : j = e
      · subst hj
        rw [hLe] at hg
        exact Option.noConfusion hg
      · rw [hL j hj] at hg
        exact hwf.freq_pos j w g hg
    · -- mem_bucket
      intro j w g hg
      by_cases hj : j = e
      · subst hj
        rw [hLe] at hg
        exact Option.noConfusion hg
      · rw [hL j hj] at hg
        have hmem := hwf.mem_bucket j w g hg
        by_cases hgm : g = s.min_freq
        · subst hgm
          simp only [fupd_self]
          rw [hb] at hmem
          rcases List.mem_cons.mp hmem with h1 | h1
          · exact absurd h1 hj
          · exact h1
        · simp only [fupd_ne _ _ _ _ hgm]
          exact hmem
    · -- bucket_sound
      intro g j hj
      by_cases hgm : g = s.min_freq
      · subst hgm
        simp only [fupd_self] at hj
        obtain ⟨w, hw⟩ := hmem_rest j hj
        exact ⟨w, by rw [hL j (hrest_ne j hj)]; exact hw⟩
      · simp only [fupd_ne _ _ _ _ hgm] at hj
        obtain ⟨w, hw⟩ := hwf.bucket_sound g j hj
        have hje : j ≠ e := by
          intro hc
          subst hc
          rw [hve] at hw
          exact hgm (some_pair_inj hw).2.symm
        exact ⟨w, by rw [hL j hje]; exact hw⟩
    · -- bucket_nodup
      intro g
      by_cases hgm : g = s.min_freq
      · subst hgm
        simp only [fupd_self]
        exact hrestnd
      · simp only [fupd_ne _ _ _ _ hgm]
        exact hwf.bucket_nodup g
    · -- pos_eq
      intro j w g hg
      by_cases hj : j = e
      · subst hj
        rw [hLe] at hg
        exact Option.noConfusion hg
      · rw [hL j hj] at hg
        simp only [fupd_ne _ _ _ _ hj]
        by_cases hgm : g = s.min_freq
        · subst hgm
          have hmem : j ∈ e :: rest := hb ▸ hwf.mem_bucket j w _ hg
          have hjrest : j ∈ rest := by
            rcases List.mem_cons.mp hmem with h1 | h1
            · exact absurd h1 hj
            · exact h1
          rw [setPositions_mem _ _ _ _ hrestnd hjrest]
          simp only [fupd_self]
          simp
        · have hjm : j ∉ e :: rest := hnotmin j w g hg hgm
          have hjrest : j ∉ rest := fun hc => hjm (by simp [hc])
          rw [setPositions_not_mem _ _ _ _ hjrest, hwf.pos_eq j w g hg]
          simp only [fupd_ne _ _ _ _ hgm]
    · -- len_le
      have := length_aerase_of_lookup_some s.cache e (ve, s.min_freq) hve
      have h2 := hwf.len_le
      simp only []
      omega
    · -- min_ok
      intro hcap2
      have := length_aerase_of_lookup_some s.cache e (ve, s.min_freq) hve
      have h2 := hwf.len_le
      simp only [] at hcap2
      omega

/-- evict at capacity removes exactly one entry. -/
theorem evict_len (s : LFUCache K V) (hwf : LFUWf s)
    (hcap : s.capacity ≤ s.cache.length) :
    (s.evict).cache.length + 1 = s.cache.length := by
  obtain ⟨hmne, _⟩ := hwf.min_ok hcap
  cases hb : s.freq_to_keys s.min_freq with
  | nil => exact absurd hb hmne
  | cons e rest =>
    rw [evict_eq s e rest hb]
    obtain ⟨ve, hve⟩ := hwf.bucket_sound s.min_freq e (by rw [hb]; simp)
    simpa using length_aerase_of_lookup_some s.cache e (ve, s.min_freq) hve

/-- Lookups after evict: the head of the minimum bucket disappears, all
other keys are untouched. -/
theorem evict_lookup (s : LFUCache K V) (e : K) (rest : List K)
    (hb : s.freq_to_keys s.min_freq = e :: rest)
    (hnd : (s.cache.map Prod.fst).Nodup) (j : K) :
    alookup (s.evict).cache j =
      if j = e then none else alookup s.cache j := by
  rw [evict_eq s e rest hb]
  by_cases hj : j = e
  · subst hj
    rw [if_pos rfl]
    exact alookup_aerase_self _ _ hnd
  · rw [if_neg hj]
    exact alookup_aerase_ne _ _ _ hj

end LFUEvict

section LFUPutRemove

variable {K V : Type} [DecidableEq K]

theorem evict_capacity (s : LFUCache K V) : (s.evict).capacity = s.capacity := by
  unfold LFUCache.evict
  cases s.freq_to_keys s.min_freq <;> rfl

theorem evict_lookup_none (s : LFUCache K V) (hwf : LFUWf s) (k : K)
    (hk : alookup s.cache k = none) : alookup (s.evict).cache k = none := by
  cases hb : s.freq_to_keys s.min_freq with
  | nil => rw [evict_eq_nil s hb]; exact hk
  | cons e rest =>
    rw [evict_lookup s e rest hb hwf.nodup_cache k]
    by_cases hke : k = e
    · rw [if_pos hke]
    · rw [if_neg hke]; exact hk

/-- Overwriting the value of a live key (leaving the frequency alone)
preserves well-formedness. -/
theorem aset_value_wf (s : LFUCache K V) (k : K) (v v2 : V) (f : Nat)
    (hwf : LFUWf s) (hk : alookup s.cache k = some (v, f)) :
    LFUWf { s with cache := aset s.cache k (v2, f) } := by
  have hL : ∀ j, alookup (aset s.cache k (v2, f)) j =
      if j = k then some (v2, f) else alookup s.cache j := by
    intro j
    by_cases hj : j = k
    · subst hj; rw [if_pos rfl, alookup_aset_self]
    · rw [if_neg hj, alookup_aset_ne _ _ _ _ hj]
  refine ⟨hwf.cap_pos, nodup_keys_aset _ _ _ hwf.nodup_cache,
    ?_, ?_, ?_, hwf.bucket_nodup, ?_, ?_, ?_⟩
  · intro j w g hg
    rw [hL j] at hg
    by_cases hj : j = k
    · rw [if_pos hj] at hg
      have := (some_pair_inj hg).2
      subst this
      exact hwf.freq_pos k v f hk
    · rw [if_neg hj] at hg
      exact hwf.freq_pos j w g hg
  · intro j w g hg
    rw [hL j] at hg
    by_cases hj : j = k
    · subst hj
      rw [if_pos rfl] at hg
      obtain ⟨_, hgf⟩ := some_pair_inj hg
      subst hgf
      exact hwf.mem_bucket j v f hk
    · rw [if_neg hj] at hg
      exact hwf.mem_bucket j w g hg
  · intro g j hj
    obtain ⟨w, hw⟩ := hwf.bucket_sound g j hj
    by_cases hjk : j = k
    · subst hjk
      rw [hk] at hw
      obtain ⟨_, hgf⟩ := some_pair_inj hw
      subst hgf
      exact ⟨v2, by rw [hL j, if_pos rfl]⟩
    · exact ⟨w, by rw [hL j, if_neg hjk]; exact hw⟩
  · intro j w g hg
    rw [hL j] at hg
    by_cases hj : j = k
    · subst hj
      rw [if_pos rfl] at hg
      obtain ⟨_, hgf⟩ := some_pair_inj hg
      subst hgf
      exact hwf.pos_eq j v f hk
    · rw [if_neg hj] at hg
      exact hwf.pos_eq j w g hg
  · simp only [length_aset_of_lookup_some _ _ _ _ hk]
    exact hwf.len_le
  · intro hcap2
    simp only [length_aset_of_lookup_some _ _ _ _ hk] at hcap2
    obtain ⟨hmne, hmle⟩ := hwf.min_ok hcap2
    refine ⟨hmne, ?_⟩
    intro j w g hg
    rw [hL j] at hg
    by_cases hj : j = k
    · rw [if_pos hj] at hg
      obtain ⟨_, hgf⟩ := some_pair_inj hg
      subst hgf
      exact hmle k v f hk
    · rw [if_neg hj] at hg
      exact hmle j w g hg

/-- Inserting a fresh key at frequency 1 into a cache with room
preserves well-formedness. -/
theorem lfu_insert_wf (s : LFUCache K V) (k : K) (v : V) (hwf : LFUWf s)
    (hk : alookup s.cache k = none) (hlen : s.cache.length < s.capacity) :
    LFUWf
      ({ capacity := s.capacity
         min_freq := 1
         cache := aset s.cache k (v, 1)
         freq_to_keys := fupd s.freq_to_keys 1 (s.freq_to_keys 1 ++ [k])
         key_to_pos := fupd s.key_to_pos k
           (some (s.freq_to_keys 1).length) } : LFUCache K V) := by
  have hkB : ∀ g, k ∉ s.freq_to_keys g := lfuWf_absent_no_bucket s hwf k hk
  have hL : ∀ j, alookup (aset s.cache k (v, 1)) j =
      if j = k then some (v, 1) else alookup s.cache j := by
    intro j
    by_cases hj : j = k
    · subst hj; rw [if_pos rfl, alookup_aset_self]
    · rw [if_neg hj, alookup_aset_ne _ _ _ _ hj]
  have hlen2 : (aset s.cache k (v, 1)).length = s.cache.length + 1 := by
    rw [aset_of_lookup_none _ _ _ hk]
    simp
  refine ⟨hwf.cap_pos, nodup_keys_aset _ _ _ hwf.nodup_cache,
    ?_, ?_, ?_, ?_, ?_, ?_, ?_⟩
  · intro j w g hg
    rw [hL j] at hg
    by_cases hj : j = k
    · rw [if_pos hj] at hg
      have := (some_pair_inj hg).2
      omega
    · rw [if_neg hj] at hg
      exact hwf.freq_pos j w g hg
  · intro j w g hg
    rw [hL j] at hg
    by_cases hj : j = k
    · subst hj
      rw [if_pos rfl] at hg
      obtain ⟨_, hgf⟩ := some_pair_inj hg
      subst hgf
      simp only [fupd_self]
      simp
    · rw [if_neg hj] at hg
      have hmem := hwf.mem_bucket j w g hg
      by_cases hg1 : g = 1
      · subst hg1
        simp only [fupd_self]
        exact List.mem_append_left _ hmem
      · simp only [fupd_ne _ _ _ _ hg1]
        exact hmem
  · intro g j hj
    by_cases hg1 : g = 1
    · subst hg1
      simp only [fupd_self] at hj
      rcases List.mem_append.mp hj with h1 | h1
      · obtain ⟨w, hw⟩ := hwf.bucket_sound 1 j h1
        have hjk : j ≠ k := fun hc => hkB 1 (hc ▸ h1)
        exact ⟨w, by rw [hL j, if_neg hjk]; exact hw⟩
      · have hjk : j = k := by simpa using h1
        subst hjk
        exact ⟨v, by rw [hL j, if_pos rfl]⟩
    · simp only [fupd_ne _ _ _ _ hg1] at hj
      obtain ⟨w, hw⟩ := hwf.bucket_sound g j hj
      have hjk : j ≠ k := fun hc => hkB g (hc ▸ hj)
      exact ⟨w, by rw [hL j, if_neg hjk]; exact hw⟩
  · intro g
    by_cases hg1 : g = 1
    · subst hg1
      simp only [fupd_self]
      rw [List.nodup_append]
      refine ⟨hwf.bucket_nodup 1, List.nodup_singleton k, ?_⟩
      intro a ha ha2
      have : a = k := by simpa using ha2
      exact hkB 1 (this ▸ ha)
    · simp only [fupd_ne _ _ _ _ hg1]
      exact hwf.bucket_nodup g
  · intro j w g hg
    rw [hL j] at hg
    by_cases hj : j = k
    · subst hj
      rw [if_pos rfl] at hg
      obtain ⟨_, hgf⟩ := some_pair_inj hg
      subst hgf
      simp only [fupd_self]
      rw [pidx_of_decomp _ _ _ (hkB 1)]
    · rw [if_neg hj] at hg
      simp only [fupd_ne _ _ _ _ hj]
      by_cases hg1 : g = 1
      · subst hg1
        have hmem := hwf.mem_bucket j w _ hg
        simp only [fupd_self]
        rw [hwf.pos_eq j w _ hg, pidx_append_left j _ _ hmem]
      · simp only [fupd_ne _ _ _ _ hg1]
        exact hwf.pos_eq j w g hg
  · show (aset s.cache k (v, 1)).length ≤ s.capacity
    rw [hlen2]
    omega
  · intro hcap2
    constructor
    · simp only [fupd_self]
      simp
    · intro j w g hg
      show (1 : Nat) ≤ g
      rw [hL j] at hg
      by_cases hj : j = k
      · rw [if_pos hj] at hg
        have := (some_pair_inj hg).2
        omega
      · rw [if_neg hj] at hg
        exact hwf.freq_pos j w g hg

/-- put preserves well-formedness. -/
theorem lfu_put_wf (s : LFUCache K V) (k : K) (v : V) (hwf : LFUWf s) :
    LFUWf (s.put k v) := by
  have hcap0 : ¬ s.capacity = 0 := by
    have := hwf.cap_pos
    omega
  unfold LFUCache.put
  rw [if_neg hcap0]
  cases hk : alookup s.cache k with
  | some vf =>
    obtain ⟨v0, f⟩ := vf
    exact incrementFrequency_wf _ k (aset_value_wf s k v0 v f hwf hk)
  | none =>
    by_cases hfull : s.cache.length ≥ s.capacity
    · simp only [if_pos hfull]
      have hwf1 : LFUWf s.evict := evict_wf s hwf hfull
      have hlen1 : (s.evict).cache.length < s.evict.capacity := by
        have h1 := evict_len s hwf hfull
        have h2 := hwf.len_le
        have h3 := hwf.cap_pos
        rw [evict_capacity]
        omega
      have hk1 : alookup (s.evict).cache k = none :=
        evict_lookup_none s hwf k hk
      exact lfu_insert_wf s.evict k v hwf1 hk1 hlen1
    · simp only [if_neg hfull]
      have hlen1 : s.cache.length < s.capacity := by omega
      exact lfu_insert_wf s k v hwf hk hlen1

/-- remove preserves well-formedness. -/
theorem lfu_remove_wf (s : LFUCache K V) (k : K) (hwf : LFUWf s) :
    LFUWf (s.remove k).2 := by
  unfold LFUCache.remove
  cases hk : alookup s.cache k with
  | none => exact hwf
  | some vf =>
    obtain ⟨v, f⟩ := vf
    obtain ⟨l₁, l₂, hb, hp, hkl1, hkl2⟩ := lfuWf_decomp s hwf k v f hk
    have h1 := removeFromFreqList_eq
      { s with cache := aerase s.cache k } k f l₁ l₂ hb hp
    simp only [h1]
    have hbndf : (l₁ ++ k :: l₂).Nodup := hb ▸ hwf.bucket_nodup f
    have hl2nd : l₂.Nodup := by
      rw [List.nodup_append, List.nodup_cons] at hbndf
      exact hbndf.2.1.2
    have hdisj : ∀ j ∈ l₂, j ∉ l₁ := by
      intro j hj2 hj1
      rw [List.nodup_append] at hbndf
      exact hbndf.2.2 hj1 (by simp [hj2])
    have hmem_l1 : ∀ j ∈ l₁, ∃ w, alookup s.cache j = some (w, f) := by
      intro j hj
      exact hwf.bucket_sound f j (by rw [hb]; exact List.mem_append_left _ hj)
    have hmem_l2 : ∀ j ∈ l₂, ∃ w, alookup s.cache j = some (w, f) := by
      intro j hj
      exact hwf.bucket_sound f j (by rw [hb]; simp [hj])
    have hl1ne : ∀ j ∈ l₁, j ≠ k := fun j hj hc => hkl1 (hc ▸ hj)
    have hl2ne : ∀ j ∈ l₂, j ≠ k := fun j hj hc => hkl2 (hc ▸ hj)
    have hL : ∀ j, j ≠ k →
        alookup (aerase s.cache k) j = alookup s.cache j :=
      fun j hj => alookup_aerase_ne _ _ _ hj
    have hLk : alookup (aerase s.cache k) k = none :=
      alookup_aerase_self _ _ hwf.nodup_cache
    have hmeml2_f : ∀ j w g, alookup s.cache j = some (w, g) → g ≠ f →
        j ∉ l₂ := by
      intro j w g hg hgf hj2
      obtain ⟨w2, hw2⟩ := hmem_l2 j hj2
      rw [hg] at hw2
      exact hgf (some_pair_inj hw2).2
    refine ⟨hwf.cap_pos, nodup_keys_aerase _ _ hwf.nodup_cache,
      ?_, ?_, ?_, ?_, ?_, ?_, ?_⟩
    · intro j w g hg
      by_cases hj : j = k
      · subst hj
        rw [hLk] at hg
        exact Option.noConfusion hg
      · rw [hL j hj] at hg
        exact hwf.freq_pos j w g hg
    · intro j w g hg
      by_cases hj : j = k
      · subst hj
        rw [hLk] at hg
        exact Option.noConfusion hg
      · rw [hL j hj] at hg
        have hmem := hwf.mem_bucket j w g hg
        by_cases hgf : g = f
        · subst hgf
          simp only [fupd_self]
          rw [hb] at hmem
          rcases List.mem_append.mp hmem with h1 | h1
          · exact List.mem_append_left _ h1
          · rcases List.mem_cons.mp h1 with h2 | h2
            · exact absurd h2 hj
            · exact List.mem_append_right _ h2
        · simp only [fupd_ne _ _ _ _ hgf]
          exact hmem
    · intro g j hj
      by_cases hgf : g = f
      · subst hgf
        simp only [fupd_self] at hj
        rcases List.mem_append.mp hj with h1 | h1
        · obtain ⟨w, hw⟩ := hmem_l1 j h1
          exact ⟨w, by rw [hL j (hl1ne j h1)]; exact hw⟩
        · obtain ⟨w, hw⟩ := hmem_l2 j h1
          exact ⟨w, by rw [hL j (hl2ne j h1)]; exact hw⟩
      · simp only [fupd_ne _ _ _ _ hgf] at hj
        obtain ⟨w, hw⟩ := hwf.bucket_sound g j hj
        have hjk : j ≠ k := by
          intro hc
          subst hc
          rw [hk] at hw
          exact hgf (some_pair_inj hw).2.symm
        exact ⟨w, by rw [hL j hjk]; exact hw⟩
    · intro g
      by_cases hgf : g = f
      · subst hgf
        simp only [fupd_self]
        exact hbndf.sublist ((List.sublist_cons_self k l₂).append_left l₁)
      · simp only [fupd_ne _ _ _ _ hgf]
        exact hwf.bucket_nodup g
    · intro j w g hg
      by_cases hj : j = k
      · subst hj
        rw [hLk] at hg
        exact Option.noConfusion hg
      · rw [hL j hj] at hg
        simp only [fupd_ne _ _ _ _ hj]
        by_cases hgf : g = f
        · subst hgf
          have hmem : j ∈ l₁ ++ k :: l₂ := hb ▸ hwf.mem_bucket j w _ hg
          simp only [fupd_self]
          rcases List.mem_append.mp hmem with h1 | h1
          · have hj2 : j ∉ l₂ := fun hc => hdisj j hc h1
            rw [setPositions_not_mem _ _ _ _ hj2, hwf.pos_eq j w _ hg, hb,
              pidx_append_left j _ _ h1, pidx_append_left j _ _ h1]
          · rcases List.mem_cons.mp h1 with h2 | h2
            · exact absurd h2 hj
            · have hj1 : j ∉ l₁ := hdisj j h2
              rw [setPositions_mem _ _ _ _ hl2nd h2,
                pidx_append_right j _ _ hj1]
        · have hj2 : j ∉ l₂ := hmeml2_f j w _ hg hgf
          simp only [fupd_ne _ _ _ _ hgf]
          rw [setPositions_not_mem _ _ _ _ hj2, hwf.pos_eq j w _ hg]
    · have h2 := length_aerase_of_lookup_some s.cache k (v, f) hk
      have h3 := hwf.len_le
      simp only []
      omega
    · intro hcap2
      have h2 := length_aerase_of_lookup_some s.cache k (v, f) hk
      have h3 := hwf.len_le
      simp only [] at hcap2
      omega

/-- Every operation preserves well-formedness. -/
theorem lfuStep_wf (s : LFUCache K V) (op : LFUOp K V) (hwf : LFUWf s) :
    LFUWf (lfuStep s op) := by
  cases op with
  | put k v => exact lfu_put_wf s k v hwf
  | get k =>
    simp only [lfuStep, LFUCache.get]
    by_cases hk : (alookup s.cache k).isSome
    · rw [if_pos hk]
      exact incrementFrequency_wf s k hwf
    · rw [if_neg hk]
      exact hwf
  | getMut k =>
    simp only [lfuStep, LFUCache.getMut]
    by_cases hk : (alookup s.cache k).isSome
    · rw [if_pos hk]
      exact incrementFrequency_wf s k hwf
    · rw [if_neg hk]
      exact hwf
  | contains k => exact hwf
  | remove k => exact lfu_remove_wf s k hwf
  | frequency k => exact hwf
  | clear =>
    refine ⟨hwf.cap_pos, by simp [lfuStep, LFUCache.clear], ?_, ?_, ?_, ?_,
      ?_, ?_, ?_⟩ <;> simp [lfuStep, LFUCache.clear]
    have := hwf.cap_pos
    omega

theorem lfuRun_wf_from (s : LFUCache K V) (t : List (LFUOp K V))
    (hwf : LFUWf s) : LFUWf (lfuRun s t) := by
  induction t generalizing s with
  | nil => exact hwf
  | cons op t ih => exact ih _ (lfuStep_wf s op hwf)

theorem lfuRun_wf (cap : Nat) (t : List (LFUOp K V)) (hcap : 0 < cap) :
    LFUWf (lfuRun (lfuNew cap) t) :=
  lfuRun_wf_from _ t (lfuNew_wf cap hcap)

end LFUPutRemove

section LFULookup

variable {K V : Type} [DecidableEq K]

/-- The key evict would remove: head of the minimum-frequency bucket. -/
def lfuEvictedKey (s : LFUCache K V) : Option K :=
  (s.freq_to_keys s.min_freq).head?

theorem incrementFrequency_lookup (s : LFUCache K V) (k : K) (v : V)
    (f : Nat) (hwf : LFUWf s) (hk : alookup s.cache k = some (v, f))
    (j : K) :
    alookup (incrementFrequency s k).cache j =
      if j = k then some (v, f + 1) else alookup s.cache j := by
  obtain ⟨l₁, l₂, hb, hp, _, _⟩ := lfuWf_decomp s hwf k v f hk
  rw [incrementFrequency_eq s k v f l₁ l₂ hk hb hp]
  by_cases hj : j = k
  · subst hj
    rw [if_pos rfl]
    exact alookup_aset_self _ _ _
  · rw [if_neg hj]
    exact alookup_aset_ne _ _ _ _ hj

theorem incrementFrequency_absent (s : LFUCache K V) (k : K)
    (hk : alookup s.cache k = none) : incrementFrequency s k = s := by
  unfold incrementFrequency
  rw [hk]

theorem lfu_get_absent (s : LFUCache K V) (k : K)
    (hk : alookup s.cache k = none) : s.get k = (none, s) := by
  unfold LFUCache.get
  rw [hk]
  rfl

theorem lfu_getMut_absent (s : LFUCache K V) (k : K)
    (hk : alookup s.cache k = none) : s.getMut k = (none, s) := by
  unfold LFUCache.getMut
  rw [hk]
  rfl

theorem lfu_get_present (s : LFUCache K V) (k : K) (v : V) (f : Nat)
    (hwf : LFUWf s) (hk : alookup s.cache k = some (v, f)) :
    s.get k = (some v, incrementFrequency s k) := by
  unfold LFUCache.get
  rw [hk]
  simp only [Option.isSome_some, if_true]
  rw [incrementFrequency_lookup s k v f hwf hk k, if_pos rfl]
  rfl

theorem lfu_getMut_present (s : LFUCache K V) (k : K) (v : V) (f : Nat)
    (hwf : LFUWf s) (hk : alookup s.cache k = some (v, f)) :
    s.getMut k = (some v, incrementFrequency s k) := by
  unfold LFUCache.getMut
  rw [hk]
  simp only [Option.isSome_some, if_true]
  rw [incrementFrequency_lookup s k v f hwf hk k, if_pos rfl]
  rfl

theorem lfu_remove_absent (s : LFUCache K V) (k : K)
    (hk : alookup s.cache k = none) : s.remove k = (none, s) := by
  unfold LFUCache.remove
  rw [hk]

theorem lfu_remove_lookup (s : LFUCache K V) (k : K) (v : V) (f : Nat)
    (hwf : LFUWf s) (hk : alookup s.cache k = some (v, f)) (j : K) :
    alookup (s.remove k).2.cache j =
      if j = k then none else alookup s.cache j := by
  unfold LFUCache.remove
  rw [hk]
  obtain ⟨l₁, l₂, hb, hp, _, _⟩ := lfuWf_decomp s hwf k v f hk
  have h1 := removeFromFreqList_eq
    { s with cache := aerase s.cache k } k f l₁ l₂ hb hp
  simp only [h1]
  by_cases hj : j = k
  · subst hj
    rw [if_pos rfl]
    exact alookup_aerase_self _ _ hwf.nodup_cache
  · rw [if_neg hj]
    exact alookup_aerase_ne _ _ _ hj

theorem lfu_remove_result (s : LFUCache K V) (k : K) (v : V) (f : Nat)
    (hk : alookup s.cache k = some (v, f)) : (s.remove k).1 = some v := by
  unfold LFUCache.remove
  rw [hk]

/-- Lookup characterization of put for an existing key. -/
theorem lfu_put_lookup_present (s : LFUCache K V) (k : K) (v v0 : V)
    (f : Nat) (hwf : LFUWf s) (hk : alookup s.cache k = some (v0, f))
    (j : K) :
    alookup (s.put k v).cache j =
      if j = k then some (v, f + 1) else alookup s.cache j := by
  have hcap0 : ¬ s.capacity = 0 := by
    have := hwf.cap_pos
    omega
  unfold LFUCache.put
  rw [if_neg hcap0, hk]
  have hwf2 := aset_value_wf s k v0 v f hwf hk
  have hk2 : alookup (aset s.cache k (v, f)) k = some (v, f) :=
    alookup_aset_self _ _ _
  rw [incrementFrequency_lookup _ k v f hwf2 hk2 j]
  by_cases hj : j = k
  · rw [if_pos hj, if_pos hj]
  · rw [if_neg hj, if_neg hj]
    exact alookup_aset_ne _ _ _ _ hj

/-- Lookup characterization of put for a new key when the cache still
has room: no eviction happens. -/
theorem lfu_put_lookup_new_room (s : LFUCache K V) (k : K) (v : V)
    (hwf : LFUWf s) (hk : alookup s.cache k = none)
    (hroom : s.cache.length < s.capacity) (j : K) :
    alookup (s.put k v).cache j =
      if j = k then some (v, 1) else alookup s.cache j := by
  have hcap0 : ¬ s.capacity = 0 := by
    have := hwf.cap_pos
    omega
  unfold LFUCache.put
  rw [if_neg hcap0, hk]
  simp only [if_neg (by omega : ¬ s.cache.length ≥ s.capacity)]
  by_cases hj : j = k
  · subst hj
    rw [if_pos rfl]
    exact alookup_aset_self _ _ _
  · rw [if_neg hj]
    exact alookup_aset_ne _ _ _ _ hj

/-- Lookup characterization of put for a new key at capacity: the head
of the minimum bucket is evicted and the new key inserted. -/
theorem lfu_put_lookup_new_full (s : LFUCache K V) (k : K) (v : V)
    (hwf : LFUWf s) (hk : alookup s.cache k = none)
    (hfull : s.capacity ≤ s.cache.length) :
    ∃ e rest, s.freq_to_keys s.min_freq = e :: rest ∧
      ∀ j, alookup (s.put k v).cache j =
        if j = k then some (v, 1)
        else if j = e then none
        else alookup s.cache j := by
  have hcap0 : ¬ s.capacity = 0 := by
    have := hwf.cap_pos
    omega
  obtain ⟨hmne, _⟩ := hwf.min_ok hfull
  cases hb : s.freq_to_keys s.min_freq with
  | nil => exact absurd hb hmne
  | cons e rest =>
    refine ⟨e, rest, rfl, ?_⟩
    intro j
    unfold LFUCache.put
    rw [if_neg hcap0, hk]
    simp only [if_pos (by omega : s.cache.length ≥ s.capacity)]
    have hev := evict_lookup s e rest hb hwf.nodup_cache
    by_cases hj : j = k
    · subst hj
      rw [if_pos rfl]
      exact alookup_aset_self _ _ _
    · rw [if_neg hj, alookup_aset_ne _ _ _ _ hj, hev j]

/-- The frequency accessor mirrors the cache map. -/
theorem lfu_frequency_eq (s : LFUCache K V) (k : K) :
    s.frequency k = (alookup s.cache k).map Prod.snd := rfl

end LFULookup

section LFUTier

variable {K V : Type} [DecidableEq K]

/-- Does the operation append the key to a frequency bucket?  This
happens when a put inserts or updates the key and when a get or
get_mut hits it. -/
def lfuEnters (s : LFUCache K V) (op : LFUOp K V) (k : K) : Bool :=
  match op with
  | .put k2 _ => k2 = k
  | .get k2 => k2 = k && s.contains k2
  | .getMut k2 => k2 = k && s.contains k2
  | _ => false

/-- 1-based position of the last operation that moved the key into its
current frequency bucket, 0 if never. -/
def lfuTierTime (cap : Nat) (t : List (LFUOp K V)) (k : K) : Nat :=
  lastEvtAux lfuStep (fun s op => lfuEnters s op k) (lfuNew cap) t 1 0

theorem lfuTierTime_append (cap : Nat) (t : List (LFUOp K V))
    (op : LFUOp K V) (k : K) :
    lfuTierTime cap (t ++ [op]) k =
      if lfuEnters (lfuRun (lfuNew cap) t) op k then t.length + 1
      else lfuTierTime cap t k := by
  unfold lfuTierTime
  rw [lastEvtAux_append]
  rw [Nat.add_comm 1 t.length]
  rfl

theorem lfuTierTime_le (cap : Nat) (t : List (LFUOp K V)) (k : K) :
    lfuTierTime cap t k ≤ t.length := by
  have := lastEvtAux_lt lfuStep (fun s op => lfuEnters s op k)
    (lfuNew cap) t 1 0 (t.length + 1) (by omega) (by omega)
  unfold lfuTierTime
  omega

/-- Transport of the tier ordering across an operation that moves none
of the listed keys. -/
theorem lfu_pairwise_untouched (cap : Nat) (t : List (LFUOp K V))
    (op : LFUOp K V) (l : List K)
    (hpair : l.Pairwise
      (fun a b => lfuTierTime cap t a < lfuTierTime cap t b))
    (hnt : ∀ b ∈ l, lfuEnters (lfuRun (lfuNew cap) t) op b = false) :
    l.Pairwise (fun a b => lfuTierTime cap (t ++ [op]) a <
      lfuTierTime cap (t ++ [op]) b) := by
  refine hpair.imp_of_mem ?_
  intro a b ha hb hr
  rw [lfuTierTime_append, lfuTierTime_append, hnt a ha, hnt b hb]
  simpa using hr

/-- Tier ordering for a bucket extended at the tail with the moved key. -/
theorem lfu_pairwise_touched_append (cap : Nat) (t : List (LFUOp K V))
    (op : LFUOp K V) (k : K) (l : List K)
    (hpair : l.Pairwise
      (fun a b => lfuTierTime cap t a < lfuTierTime cap t b))
    (hnt : ∀ b ∈ l, lfuEnters (lfuRun (lfuNew cap) t) op b = false)
    (htk : lfuEnters (lfuRun (lfuNew cap) t) op k = true) :
    (l ++ [k]).Pairwise (fun a b => lfuTierTime cap (t ++ [op]) a <
      lfuTierTime cap (t ++ [op]) b) := by
  rw [List.pairwise_append]
  refine ⟨lfu_pairwise_untouched cap t op l hpair hnt,
    List.pairwise_singleton _ _, ?_⟩
  intro a ha b hb
  have hbk : b = k := by simpa using hb
  subst hbk
  rw [lfuTierTime_append, lfuTierTime_append, hnt a ha, htk]
  have := lfuTierTime_le cap t a
  simpa using Nat.lt_succ_of_le this

/-- Tier ordering of every bucket of the state produced by
increment_frequency, given the ordering before the operation. -/
theorem lfu_tier_bucket_cases (cap : Nat) (t : List (LFUOp K V))
    (op : LFUOp K V) (g : Nat) (k : K) (v : V) (f : Nat) (l₁ l₂ : List K)
    (hwf : LFUWf (lfuRun (lfuNew cap) t))
    (hk : alookup (lfuRun (lfuNew cap) t).cache k = some (v, f))
    (hb : (lfuRun (lfuNew cap) t).freq_to_keys f = l₁ ++ k :: l₂)
    (hpair : ∀ g2, ((lfuRun (lfuNew cap) t).freq_to_keys g2).Pairwise
      (fun a b => lfuTierTime cap t a < lfuTierTime cap t b))
    (hne : ∀ b, b ≠ k → lfuEnters (lfuRun (lfuNew cap) t) op b = false)
    (htk : lfuEnters (lfuRun (lfuNew cap) t) op k = true)
    (hkl1 : k ∉ l₁) (hkl2 : k ∉ l₂) :
    ((fupd (fupd (lfuRun (lfuNew cap) t).freq_to_keys f (l₁ ++ l₂)) (f + 1)
        ((lfuRun (lfuNew cap) t).freq_to_keys (f + 1) ++ [k])) g).Pairwise
      (fun a b => lfuTierTime cap (t ++ [op]) a <
        lfuTierTime cap (t ++ [op]) b) := by
  set s := lfuRun (lfuNew cap) t with hs
  have hkB : k ∉ s.freq_to_keys (f + 1) := by
    intro hmem
    obtain ⟨w, hw⟩ := hwf.bucket_sound (f + 1) k hmem
    rw [hk] at hw
    have := (some_pair_inj hw).2
    omega
  by_cases hg1 : g = f + 1
  · subst hg1
    simp only [fupd_self]
    refine lfu_pairwise_touched_append cap t op k _ (hpair (f + 1)) ?_ htk
    intro b hbB
    refine hne b ?_
    intro hc
    exact hkB (hc ▸ hbB)
  · simp only [fupd_ne _ _ _ _ hg1]
    by_cases hgf : g = f
    · subst hgf
      simp only [fupd_self]
      have hsubl : List.Sublist (l₁ ++ l₂) (s.freq_to_keys g) := by
        rw [hb]
        exact (List.sublist_cons_self k l₂).append_left l₁
      refine lfu_pairwise_untouched cap t op _
        ((hpair g).sublist hsubl) ?_
      intro b hbm
      refine hne b ?_
      intro hc
      subst hc
      rcases List.mem_append.mp hbm with h1 | h1
      · exact hkl1 h1
      · exact hkl2 h1
    · simp only [fupd_ne _ _ _ _ hgf]
      refine lfu_pairwise_untouched cap t op _ (hpair g) ?_
      intro b hbm
      refine hne b ?_
      intro hc
      subst hc
      obtain ⟨w, hw⟩ := hwf.bucket_sound g b hbm
      rw [hk] at hw
      exact hgf (some_pair_inj hw).2.symm

/-- Core tier invariant: along any trace from a fresh cache, every
frequency bucket is ordered by strictly increasing tier-entry time
(oldest entry first, exactly the FIFO order evict uses). -/
theorem lfu_tier_inv (cap : Nat) (t : List (LFUOp K V)) (hcap : 0 < cap) :
    ∀ g, ((lfuRun (lfuNew cap) t).freq_to_keys g).Pairwise
      (fun a b => lfuTierTime cap t a < lfuTierTime cap t b) := by
  induction t using List.reverseRecOn with
  | nil => intro g; simp [lfuRun, lfuNew]
  | append_singleton t op ih =>
    have hwf : LFUWf (lfuRun (lfuNew cap) t) := lfuRun_wf cap t hcap
    set s := lfuRun (lfuNew cap) t with hs
    have hrun : lfuRun (lfuNew cap) (t ++ [op]) = lfuStep s op := by
      rw [lfuRun_append]
      rfl
    rw [hrun]
    intro g
    have hpair := ih
    cases op with
    | contains k =>
      exact lfu_pairwise_untouched cap t _ _ (hpair g) (fun b _ => rfl)
    | frequency k =>
      exact lfu_pairwise_untouched cap t _ _ (hpair g) (fun b _ => rfl)
    | clear => simp [lfuStep, LFUCache.clear]
    | get k =>
      simp only [lfuStep, LFUCache.get]
      cases hk : alookup s.cache k with
      | none =>
        have hcont : s.contains k = false := by
          simp [LFUCache.contains, hk]
        simp only [hk, Option.isSome_none, Bool.false_eq_true, if_false]
        refine lfu_pairwise_untouched cap t _ _ (hpair g) ?_
        intro b _
        simp [lfuEnters, ← hs, hcont]
      | some vf =>
        obtain ⟨v, f⟩ := vf
        simp only [hk, Option.isSome_some, if_true]
        have hcont : s.contains k = true := by
          simp [LFUCache.contains, hk]
        have htk : lfuEnters s (LFUOp.get k) k = true := by
          simp [lfuEnters, hcont]
        have hne : ∀ b, b ≠ k →
            lfuEnters s (LFUOp.get k) b = false := by
          intro b hb
          simp [lfuEnters, Ne.symm hb]
        obtain ⟨l₁, l₂, hb, hp, hkl1, hkl2⟩ := lfuWf_decomp s hwf k v f hk
        rw [incrementFrequency_eq s k v f l₁ l₂ hk hb hp]
        exact lfu_tier_bucket_cases cap t _ g k v f l₁ l₂ hwf hk hb hpair
          hne htk hkl1 hkl2
    | getMut k =>
      simp only [lfuStep, LFUCache.getMut]
      cases hk : alookup s.cache k with
      | none =>
        have hcont : s.contains k = false := by
          simp [LFUCache.contains, hk]
        simp only [hk, Option.isSome_none, Bool.false_eq_true, if_false]
        refine lfu_pairwise_untouched cap t _ _ (hpair g) ?_
        intro b _
        simp [lfuEnters, ← hs, hcont]
      | some vf =>
        obtain ⟨v, f⟩ := vf
        simp only [hk, Option.isSome_some, if_true]
        have hcont : s.contains k = true := by
          simp [LFUCache.contains, hk]
        have htk : lfuEnters s (LFUOp.getMut k) k = true := by
          simp [lfuEnters, hcont]
        have hne : ∀ b, b ≠ k →
            lfuEnters s (LFUOp.getMut k) b = false := by
          intro b hb
          simp [lfuEnters, Ne.symm hb]
        obtain ⟨l₁, l₂, hb, hp, hkl1, hkl2⟩ := lfuWf_decomp s hwf k v f hk
        rw [incrementFrequency_eq s k v f l₁ l₂ hk hb hp]
        exact lfu_tier_bucket_cases cap t _ g k v f l₁ l₂ hwf hk hb hpair
          hne htk hkl1 hkl2
    | remove k =>
      simp only [lfuStep]
      have hnt : ∀ b ∈ (lfuStep s (LFUOp.remove k)).freq_to_keys g,
          lfuEnters s (LFUOp.remove k) b = false := fun b _ => rfl
      cases hk : alookup s.cache k with
      | none =>
        rw [lfu_remove_absent s k hk]
        exact lfu_pairwise_untouched cap t _ _ (hpair g) (fun b _ => rfl)
      | some vf =>
        obtain ⟨v, f⟩ := vf
        obtain ⟨l₁, l₂, hb, hp, hkl1, hkl2⟩ := lfuWf_decomp s hwf k v f hk
        unfold LFUCache.remove
        rw [hk]
        have h1 := removeFromFreqList_eq
          { s with cache := aerase s.cache k } k f l₁ l₂ hb hp
        simp only [h1]
        by_cases hgf : g = f
        · subst hgf
          simp only [fupd_self]
          have hsubl : List.Sublist (l₁ ++ l₂) (s.freq_to_keys g) := by
            rw [hb]
            exact (List.sublist_cons_self k l₂).append_left l₁
          exact lfu_pairwise_untouched cap t _ _
            ((hpair g).sublist hsubl) (fun b _ => rfl)
        · simp only [fupd_ne _ _ _ _ hgf]
          exact lfu_pairwise_untouched cap t _ _ (hpair g) (fun b _ => rfl)
    | put k v =>
      have hcap0 : ¬ s.capacity = 0 := by
        have := hwf.cap_pos
        omega
      have htk : lfuEnters s (LFUOp.put k v) k = true := by
        simp [lfuEnters]
      have hne : ∀ b, b ≠ k → lfuEnters s (LFUOp.put k v) b = false := by
        intro b hbk
        simp [lfuEnters, Ne.symm hbk]
      simp only [lfuStep]
      unfold LFUCache.put
      rw [if_neg hcap0]
      cases hk : alookup s.cache k with
      | some vf =>
        obtain ⟨v0, f⟩ := vf
        have hwf2 := aset_value_wf s k v0 v f hwf hk
        have hk2 : alookup (aset s.cache k (v, f)) k = some (v, f) :=
          alookup_aset_self _ _ _
        obtain ⟨l₁, l₂, hb, hp, hkl1, hkl2⟩ :=
          lfuWf_decomp _ hwf2 k v f hk2
        show List.Pairwise _
          ((incrementFrequency
            { s with cache := aset s.cache k (v, f) } k).freq_to_keys g)
        rw [incrementFrequency_eq _ k v f l₁ l₂ hk2 hb hp]
        exact lfu_tier_bucket_cases cap t _ g k v0 f l₁ l₂ hwf hk hb hpair
          hne htk hkl1 hkl2
      | none =>
        have hkNoB : ∀ g2, k ∉ s.freq_to_keys g2 :=
          lfuWf_absent_no_bucket s hwf k hk
        by_cases hfull : s.cache.length ≥ s.capacity
        · simp only [if_pos hfull]
          obtain ⟨hmne, _⟩ := hwf.min_ok hfull
          cases hbmin : s.freq_to_keys s.min_freq with
          | nil => exact absurd hbmin hmne
          | cons e rest =>
            rw [evict_eq s e rest hbmin]
            have hrest_sub : List.Sublist rest (s.freq_to_keys s.min_freq) := by
              rw [hbmin]
              exact List.sublist_cons_self e rest
            by_cases hg1 : g = 1
            · subst hg1
              simp only [fupd_self]
              by_cases hm1 : (1 : Nat) = s.min_freq
              · rw [← hm1] at hbmin hrest_sub ⊢
                simp only [fupd_self]
                refine lfu_pairwise_touched_append cap t _ k _
                  ((hpair 1).sublist hrest_sub) ?_ htk
                intro b hbm
                exact hne b (fun hc => hkNoB 1 (hc ▸ hrest_sub.mem hbm))
              · simp only [fupd_ne _ _ _ _ (fun hc => hm1 hc)]
                refine lfu_pairwise_touched_append cap t _ k _
                  (hpair 1) ?_ htk
                intro b hbm
                exact hne b (fun hc => hkNoB 1 (hc ▸ hbm))
            · simp only [fupd_ne _ _ _ _ hg1]
              by_cases hgm : g = s.min_freq
              · subst hgm
                simp only [fupd_self]
                refine lfu_pairwise_untouched cap t _ _
                  ((hpair s.min_freq).sublist hrest_sub) ?_
                intro b hbm
                exact hne b
                  (fun hc => hkNoB s.min_freq (hc ▸ hrest_sub.mem hbm))
              · simp only [fupd_ne _ _ _ _ hgm]
                refine lfu_pairwise_untouched cap t _ _ (hpair g) ?_
                intro b hbm
                exact hne b (fun hc => hkNoB g (hc ▸ hbm))
        · simp only [if_neg hfull]
          by_cases hg1 : g = 1
          · subst hg1
            simp only [fupd_self]
            refine lfu_pairwise_touched_append cap t _ k _ (hpair 1) ?_ htk
            intro b hbm
            exact hne b (fun hc => hkNoB 1 (hc ▸ hbm))
          · simp only [fupd_ne _ _ _ _ hg1]
            refine lfu_pairwise_untouched cap t _ _ (hpair g) ?_
            intro b hbm
            exact hne b (fun hc => hkNoB g (hc ▸ hbm))

end LFUTier

section LFUGhosts

variable {K V : Type} [DecidableEq K]

/-- Is the operation a get_mut? -/
def lfuIsMut : LFUOp K V → Bool
  | .getMut _ => true
  | _ => false

/-- A trace with no get_mut operations (the spec's public surface). -/
abbrev LfuNoMut (t : List (LFUOp K V)) : Prop :=
  ∀ op ∈ t, lfuIsMut op = false

/-- Reference count of the frequency a key should have: 1 at insertion,
plus one for every later get or value-updating put, reset by removal,
eviction, or clear. -/
def lfuFreqSpec (s : LFUCache K V) (t : List (LFUOp K V)) (k : K)
    (acc : Option Nat) : Option Nat :=
  match t with
  | [] => acc
  | op :: rest =>
      lfuFreqSpec (lfuStep s op) rest k
        (if (lfuStep s op).contains k then
          match op with
          | .put k2 _ =>
              if k2 = k then
                (if s.contains k then acc.map (· + 1) else some 1)
              else acc
          | .get k2 => if k2 = k then acc.map (· + 1) else acc
          | _ => acc
        else none)

theorem lfu_contains_iff_lookup (s : LFUCache K V) (k : K) :
    s.contains k = (alookup s.cache k).isSome := rfl

theorem lfuFreqSpec_inv (s : LFUCache K V) (t : List (LFUOp K V)) (k : K)
    (acc : Option Nat) (hwf : LFUWf s) (hmut : LfuNoMut t)
    (hacc : (alookup s.cache k).map Prod.snd = acc) :
    (alookup (lfuRun s t).cache k).map Prod.snd = lfuFreqSpec s t k acc := by
  induction t generalizing s acc with
  | nil => exact hacc
  | cons op rest ih =>
    rw [lfuRun_cons]
    unfold lfuFreqSpec
    have hmut' : LfuNoMut rest := fun op hop =>
      hmut op (List.mem_cons_of_mem _ hop)
    refine ih (lfuStep s op) _ (lfuStep_wf s op hwf) hmut' ?_
    by_cases hpresent : (lfuStep s op).contains k
    · rw [if_pos hpresent]
      rw [lfu_contains_iff_lookup] at hpresent
      obtain ⟨x, hx⟩ := Option.isSome_iff_exists.mp hpresent
      obtain ⟨xv, xf⟩ := x
      cases op with
      | getMut k2 =>
        have := hmut (LFUOp.getMut k2) (by simp)
        simp [lfuIsMut] at this
      | contains k2 => exact hacc
      | frequency k2 => exact hacc
      | clear =>
        simp [lfuStep, LFUCache.clear] at hx
      | remove k2 =>
        have hk2 : k2 ≠ k := by
          intro hc
          subst hc
          cases hk : alookup s.cache k2 with
          | none =>
            rw [show lfuStep s (LFUOp.remove k2) = (s.remove k2).2 from rfl,
              lfu_remove_absent s k2 hk] at hx
            rw [hk] at hx
            exact Option.noConfusion hx
          | some vf =>
            obtain ⟨v, f⟩ := vf
            rw [show lfuStep s (LFUOp.remove k2) = (s.remove k2).2 from rfl,
              lfu_remove_lookup s k2 v f hwf hk k2, if_pos rfl] at hx
            exact Option.noConfusion hx
        cases hk : alookup s.cache k2 with
        | none =>
          rw [show lfuStep s (LFUOp.remove k2) = (s.remove k2).2 from rfl,
            lfu_remove_absent s k2 hk]
          exact hacc
        | some vf =>
          obtain ⟨v, f⟩ := vf
          rw [show lfuStep s (LFUOp.remove k2) = (s.remove k2).2 from rfl,
            lfu_remove_lookup s k2 v f hwf hk k, if_neg (fun hc => hk2 hc.symm)]
          exact hacc
      | get k2 =>
        simp only []
        cases hk : alookup s.cache k2 with
        | none =>
          rw [show lfuStep s (LFUOp.get k2) = (s.get k2).2 from rfl,
            lfu_get_absent s k2 hk]
          by_cases hk2 : k2 = k
          · subst hk2
            rw [show lfuStep s (LFUOp.get k2) = (s.get k2).2 from rfl,
              lfu_get_absent s k2 hk] at hx
            rw [hk] at hx
            exact Option.noConfusion hx
          · rw [if_neg hk2]
            exact hacc
        | some vf =>
          obtain ⟨v, f⟩ := vf
          have hstate : lfuStep s (LFUOp.get k2) = incrementFrequency s k2 := by
            show (s.get k2).2 = _
            rw [lfu_get_present s k2 v f hwf hk]
          rw [hstate, incrementFrequency_lookup s k2 v f hwf hk k]
          by_cases hk2 : k2 = k
          · subst hk2
            rw [if_pos rfl, if_pos rfl, ← hacc, hk]
            rfl
          · rw [if_neg (fun hc => hk2 hc.symm), if_neg hk2]
            exact hacc
      | put k2 v =>
        simp only []
        cases hk : alookup s.cache k2 with
        | some vf =>
          obtain ⟨v0, f⟩ := vf
          have hcont : s.contains k2 = true := by
            rw [lfu_contains_iff_lookup, hk]
            rfl
          have hstate : ∀ j, alookup (lfuStep s (LFUOp.put k2 v)).cache j =
              if j = k2 then some (v, f + 1) else alookup s.cache j :=
            fun j => lfu_put_lookup_present s k2 v v0 f hwf hk j
          rw [hstate k]
          by_cases hk2 : k2 = k
          · subst hk2
            rw [if_pos rfl, if_pos rfl, if_pos hcont, ← hacc, hk]
            rfl
          · rw [if_neg (fun hc => hk2 hc.symm), if_neg hk2]
            exact hacc
        | none =>
          have hcont : s.contains k2 = false := by
            rw [lfu_contains_iff_lookup, hk]
            rfl
          by_cases hfull : s.capacity ≤ s.cache.length
          · obtain ⟨e, rest2, hbmin, hstate⟩ :=
              lfu_put_lookup_new_full s k2 v hwf hk hfull
            rw [show lfuStep s (LFUOp.put k2 v) = s.put k2 v from rfl,
              hstate k]
            by_cases hk2 : k2 = k
            · subst hk2
              rw [if_pos rfl, if_pos rfl, if_neg (by simp [hcont])]
              rfl
            · rw [if_neg (fun hc => hk2 hc.symm), if_neg hk2]
              by_cases hke : k = e
              · subst hke
                rw [if_pos rfl]
                rw [show lfuStep s (LFUOp.put k2 v) = s.put k2 v from rfl,
                  hstate k, if_neg (fun hc => hk2 hc.symm), if_pos rfl] at hx
                exact Option.noConfusion hx
              · rw [if_neg hke]
                exact hacc
          · have hstate : ∀ j, alookup (lfuStep s (LFUOp.put k2 v)).cache j =
                if j = k2 then some (v, 1) else alookup s.cache j :=
              fun j => lfu_put_lookup_new_room s k2 v hwf hk (by omega) j
            rw [hstate k]
            by_cases hk2 : k2 = k
            · subst hk2
              rw [if_pos rfl, if_pos rfl, if_neg (by simp [hcont])]
              rfl
            · rw [if_neg (fun hc => hk2 hc.symm), if_neg hk2]
              exact hacc
    · rw [if_neg hpresent]
      rw [lfu_contains_iff_lookup] at hpresent
      cases hpk : alookup (lfuStep s op).cache k with
      | none => rfl
      | some x => rw [hpk] at hpresent; simp at hpresent

/-- Reference value a key should map to: the last value stored by a put,
reset by removal, eviction, or clear. -/
def lfuStoredSpec (s : LFUCache K V) (t : List (LFUOp K V)) (k : K)
    (acc : Option V) : Option V :=
  match t with
  | [] => acc
  | op :: rest =>
      lfuStoredSpec (lfuStep s op) rest k
        (if (lfuStep s op).contains k then
          match op with
          | .put k2 v => if k2 = k then some v else acc
          | _ => acc
        else none)

theorem lfuStoredSpec_inv (s : LFUCache K V) (t : List (LFUOp K V)) (k : K)
    (acc : Option V) (hwf : LFUWf s)
    (hacc : (alookup s.cache k).map Prod.fst = acc) :
    (alookup (lfuRun s t).cache k).map Prod.fst = lfuStoredSpec s t k acc := by
  induction t generalizing s acc with
  | nil => exact hacc
  | cons op rest ih =>
    rw [lfuRun_cons]
    unfold lfuStoredSpec
    refine ih (lfuStep s op) _ (lfuStep_wf s op hwf) ?_
    by_cases hpresent : (lfuStep s op).contains k
    · rw [if_pos hpresent]
      rw [lfu_contains_iff_lookup] at hpresent
      obtain ⟨x, hx⟩ := Option.isSome_iff_exists.mp hpresent
      obtain ⟨xv, xf⟩ := x
      cases op with
      | contains k2 => exact hacc
      | frequency k2 => exact hacc
      | clear =>
        simp [lfuStep, LFUCache.clear] at hx
      | remove k2 =>
        cases hk : alookup s.cache k2 with
        | none =>
          rw [show lfuStep s (LFUOp.remove k2) = (s.remove k2).2 from rfl,
            lfu_remove_absent s k2 hk]
          exact hacc
        | some vf =>
          obtain ⟨v, f⟩ := vf
          have hk2 : k2 ≠ k := by
            intro hc
            subst hc
            rw [show lfuStep s (LFUOp.remove k2) = (s.remove k2).2 from rfl,
              lfu_remove_lookup s k2 v f hwf hk k2, if_pos rfl] at hx
            exact Option.noConfusion hx
          rw [show lfuStep s (LFUOp.remove k2) = (s.remove k2).2 from rfl,
            lfu_remove_lookup s k2 v f hwf hk k, if_neg (fun hc => hk2 hc.symm)]
          exact hacc
      | get k2 =>
        simp only []
        cases hk : alookup s.cache k2 with
        | none =>
          rw [show lfuStep s (LFUOp.get k2) = (s.get k2).2 from rfl,
            lfu_get_absent s k2 hk]
          exact hacc
        | some vf =>
          obtain ⟨v, f⟩ := vf
          have hstate : lfuStep s (LFUOp.get k2) = incrementFrequency s k2 := by
            show (s.get k2).2 = _
            rw [lfu_get_present s k2 v f hwf hk]
          rw [hstate, incrementFrequency_lookup s k2 v f hwf hk k]
          by_cases hk2 : k2 = k
          · subst hk2
            rw [if_pos rfl, ← hacc, hk]
            rfl
          · rw [if_neg (fun hc => hk2 hc.symm)]
            exact hacc
      | getMut k2 =>
        simp only []
        cases hk : alookup s.cache k2 with
        | none =>
          rw [show lfuStep s (LFUOp.getMut k2) = (s.getMut k2).2 from rfl,
            lfu_getMut_absent s k2 hk]
          exact hacc
        | some vf =>
          obtain ⟨v, f⟩ := vf
          have hstate : lfuStep s (LFUOp.getMut k2) =
              incrementFrequency s k2 := by
            show (s.getMut k2).2 = _
            rw [lfu_getMut_present s k2 v f hwf hk]
          rw [hstate, incrementFrequency_lookup s k2 v f hwf hk k]
          by_cases hk2 : k2 = k
          · subst hk2
            rw [if_pos rfl, ← hacc, hk]
            rfl
          · rw [if_neg (fun hc => hk2 hc.symm)]
            exact hacc
      | put k2 v =>
        simp only []
        cases hk : alookup s.cache k2 with
        | some vf =>
          obtain ⟨v0, f⟩ := vf
          have hstate : ∀ j, alookup (lfuStep s (LFUOp.put k2 v)).cache j =
              if j = k2 then some (v, f + 1) else alookup s.cache j :=
            fun j => lfu_put_lookup_present s k2 v v0 f hwf hk j
          rw [hstate k]
          by_cases hk2 : k2 = k
          · subst hk2
            rw [if_pos rfl, if_pos rfl]
            rfl
          · rw [if_neg (fun hc => hk2 hc.symm), if_neg hk2]
            exact hacc
        | none =>
          by_cases hfull : s.capacity ≤ s.cache.length
          · obtain ⟨e, rest2, hbmin, hstate⟩ :=
              lfu_put_lookup_new_full s k2 v hwf hk hfull
            rw [show lfuStep s (LFUOp.put k2 v) = s.put k2 v from rfl,
              hstate k]
            by_cases hk2 : k2 = k
            · subst hk2
              rw [if_pos rfl, if_pos rfl]
              rfl
            · rw [if_neg (fun hc => hk2 hc.symm), if_neg hk2]
              by_cases hke : k = e
              · subst hke
                rw [if_pos rfl]
                rw [show lfuStep s (LFUOp.put k2 v) = s.put k2 v from rfl,
                  hstate k, if_neg (fun hc => hk2 hc.symm), if_pos rfl] at hx
                exact Option.noConfusion hx
              · rw [if_neg hke]
                exact hacc
          · have hstate : ∀ j, alookup (lfuStep s (LFUOp.put k2 v)).cache j =
                if j = k2 then some (v, 1) else alookup s.cache j :=
              fun j => lfu_put_lookup_new_room s k2 v hwf hk (by omega) j
            rw [hstate k]
            by_cases hk2 : k2 = k
            · subst hk2
              rw [if_pos rfl, if_pos rfl]
              rfl
            · rw [if_neg (fun hc => hk2 hc.symm), if_neg hk2]
              exact hacc
    · rw [if_neg hpresent]
      rw [lfu_contains_iff_lookup] at hpresent
      cases hpk : alookup (lfuStep s op).cache k with
      | none => rfl
      | some x => rw [hpk] at hpresent; simp at hpresent

end LFUGhosts

section Support

variable {K V : Type} [DecidableEq K]

/-- Is the operation an LRU peek? -/
def lruIsPeek : LRUOp K V → Bool
  | .peek _ => true
  | _ => false

/-- Is the operation an LFU frequency query? -/
def lfuIsFreq : LFUOp K V → Bool
  | .frequency _ => true
  | _ => false

theorem lruRun_reads (s : LRUCache K V) (reads : List (LRUOp K V))
    (h : ∀ op ∈ reads, lruIsPeek op = true) : lruRun s reads = s := by
  induction reads with
  | nil => rfl
  | cons op rest ih =>
    have hop := h op (by simp)
    cases op with
    | peek k =>
      rw [lruRun_cons]
      exact ih (fun op2 hop2 => h op2 (by simp [hop2]))
    | put k v => simp [lruIsPeek] at hop
    | get k => simp [lruIsPeek] at hop
    | getMut k => simp [lruIsPeek] at hop
    | contains k => simp [lruIsPeek] at hop
    | remove k => simp [lruIsPeek] at hop
    | clear => simp [lruIsPeek] at hop

theorem lfuRun_reads (s : LFUCache K V) (reads : List (LFUOp K V))
    (h : ∀ op ∈ reads, lfuIsFreq op = true) : lfuRun s reads = s := by
  induction reads with
  | nil => rfl
  | cons op rest ih =>
    have hop := h op (by simp)
    cases op with
    | frequency k =>
      rw [lfuRun_cons]
      exact ih (fun op2 hop2 => h op2 (by simp [hop2]))
    | put k v => simp [lfuIsFreq] at hop
    | get k => simp [lfuIsFreq] at hop
    | getMut k => simp [lfuIsFreq] at hop
    | contains k => simp [lfuIsFreq] at hop
    | remove k => simp [lfuIsFreq] at hop
    | clear => simp [lfuIsFreq] at hop

theorem lru_get_result (s : LRUCache K V) (k : K) :
    (s.get k).1 = s.peek k := by
  unfold LRUCache.get LRUCache.peek
  cases lruFind s k <;> rfl

theorem lfu_get_result (s : LFUCache K V) (k : K) (hwf : LFUWf s) :
    (s.get k).1 = (alookup s.cache k).map Prod.fst := by
  cases hk : alookup s.cache k with
  | none => rw [lfu_get_absent s k hk]; rfl
  | some vf =>
    obtain ⟨v, f⟩ := vf
    rw [lfu_get_present s k v f hwf hk]
    rfl

theorem lfu_put_lookup_self (s : LFUCache K V) (k : K) (v : V)
    (hwf : LFUWf s) : ∃ f2, alookup (s.put k v).cache k = some (v, f2) := by
  cases hk : alookup s.cache k with
  | some vf =>
    obtain ⟨v0, f⟩ := vf
    exact ⟨f + 1, by
      rw [lfu_put_lookup_present s k v v0 f hwf hk k, if_pos rfl]⟩
  | none =>
    by_cases hfull : s.capacity ≤ s.cache.length
    · obtain ⟨e, rest, hb, hstate⟩ := lfu_put_lookup_new_full s k v hwf hk hfull
      exact ⟨1, by rw [hstate k, if_pos rfl]⟩
    · exact ⟨1, by
        rw [lfu_put_lookup_new_room s k v hwf hk (by omega) k, if_pos rfl]⟩

/-- After increment_frequency the cache map holds the bumped frequency;
this needs no well-formedness since the cache field is written directly. -/
theorem removeFromFreqList_cache (s : LFUCache K V) (k : K) (f : Nat) :
    (removeFromFreqList s k f).cache = s.cache := by
  unfold removeFromFreqList
  cases s.key_to_pos k with
  | none => rfl
  | some pos =>
    simp only []
    split
    · rfl
    · rfl

theorem incrementFrequency_cache_self (s : LFUCache K V) (k : K) (v : V)
    (f : Nat) (hk : alookup s.cache k = some (v, f)) :
    alookup (incrementFrequency s k).cache k = some (v, f + 1) := by
  unfold incrementFrequency
  rw [hk]
  simp only []
  split
  · simp only [removeFromFreqList_cache]
    exact alookup_aset_self _ _ _
  · simp only [removeFromFreqList_cache]
    exact alookup_aset_self _ _ _

theorem lfu_getMut_eq_get (s : LFUCache K V) (k : K) :
    s.getMut k = s.get k := rfl

theorem lru_getMut_eq_get (s : LRUCache K V) (k : K) :
    s.getMut k = s.get k := rfl

theorem lru_contains_false_find (s : LRUCache K V) (k : K)
    (h : ¬ s.contains k) : lruFind s k = none := by
  unfold LRUCache.contains at h
  cases hf : lruFind s k with
  | none => rfl
  | some p => rw [hf] at h; simp at h

theorem lfu_contains_false_lookup (s : LFUCache K V) (k : K)
    (h : ¬ s.contains k) : alookup s.cache k = none := by
  rw [lfu_contains_iff_lookup] at h
  cases hf : alookup s.cache k with
  | none => rfl
  | some p => rw [hf] at h; simp at h

end Support

section Claims

/-- C1: for every LRU or LFU cache constructed with positive capacity
and every finite sequence of operations (get, put, peek, get_mut,
remove, contains, frequency, clear), len() is at most capacity() after
every operation completes (every trace prefix is itself a trace). -/
theorem C1_len_le_capacity {K V : Type} [DecidableEq K] (cap : Nat)
    (hcap : 0 < cap) :
    (∀ t : List (LRUOp K V),
      (lruRun (lruNew cap) t).len ≤ (lruRun (lruNew cap) t).capacity) ∧
    (∀ t : List (LFUOp K V),
      (lfuRun (lfuNew cap) t).len ≤ (lfuRun (lfuNew cap) t).capacity) := by
  constructor
  · intro t
    have h1 := lruRun_len_le (lruNew cap : LRUCache K V) t (by simp [lruNew])
    have h2 := lruRun_capacity (lruNew cap : LRUCache K V) t
    unfold LRUCache.len
    rw [h2]
    exact h1
  · intro t
    exact (lfuRun_wf cap t hcap).len_le

/-- Witness for C1 at capacity 2 with an overflowing put trace. -/
theorem C1_len_le_capacity_witness :
    0 < 2 ∧
    (lruRun (lruNew 2 : LRUCache Nat Nat)
      [LRUOp.put 1 10, LRUOp.put 2 20, LRUOp.put 3 30]).len ≤
      (lruRun (lruNew 2 : LRUCache Nat Nat)
        [LRUOp.put 1 10, LRUOp.put 2 20, LRUOp.put 3 30]).capacity :=
  ⟨by decide, (C1_len_le_capacity 2 (by decide)).1
    [LRUOp.put 1 10, LRUOp.put 2 20, LRUOp.put 3 30]⟩

/-- C2: for the LRU cache, put(k, v) evicts and returns an entry
exactly when k is absent and the cache is at capacity; the evicted pair
carries the current value of its key, whose last touch (by get or put)
is strictly older than that of every other current key; and a put of an
existing key replaces the value, moves the node to the head, and evicts
nothing. -/
theorem C2_lru_eviction_policy {K V : Type} [DecidableEq K] (cap : Nat)
    (t : List (LRUOp K V)) (k : K) (v : V) (hcap : 0 < cap)
    (hmut : LruNoMut t) :
    ((((lruRun (lruNew cap) t).put k v).1.isSome) ↔
      (¬ (lruRun (lruNew cap) t).contains k ∧
        (lruRun (lruNew cap) t).isFull)) ∧
    (∀ e ve, ((lruRun (lruNew cap) t).put k v).1 = some (e, ve) →
      (lruRun (lruNew cap) t).peek e = some ve ∧
      e ∈ (lruRun (lruNew cap) t).keysList ∧
      ∀ j ∈ (lruRun (lruNew cap) t).keysList, j ≠ e →
        lruLastTouch cap t e < lruLastTouch cap t j) ∧
    ((lruRun (lruNew cap) t).contains k →
      ((lruRun (lruNew cap) t).put k v).1 = none ∧
      ((lruRun (lruNew cap) t).put k v).2.entries =
        (k, v) :: (lruRun (lruNew cap) t).entries.eraseP
          (fun q => q.1 = k)) := by
  set s := lruRun (lruNew cap) t with hs
  have hnd : (s.entries.map Prod.fst).Nodup :=
    lruRun_nodup (lruNew cap) t (by simp [lruNew])
  have hcapS : s.capacity = cap := lruRun_capacity (lruNew cap) t
  refine ⟨?_, ?_, ?_⟩
  · cases hf : lruFind s k with
    | some p =>
      rw [lru_put_found s k v p hf]
      simp [LRUCache.contains, hf]
    | none =>
      have hcont : s.contains k = false := by
        simp [LRUCache.contains, hf]
      by_cases hc : s.entries.length + 1 > s.capacity
      · rw [lru_put_evict s k v hf hc]
        have hg : (((k, v) :: s.entries).getLast?).isSome := by
          rw [List.getLast?_eq_getLast _ (List.cons_ne_nil _ _)]
          rfl
        simp only [hg, hcont, LRUCache.isFull, true_iff]
        constructor
        · simp
        · simp only [decide_eq_true_eq]
          omega
      · rw [lru_put_room s k v hf hc]
        simp only [Option.isSome_none, Bool.false_eq_true, false_iff,
          LRUCache.isFull, hcont]
        intro hcontr
        have := hcontr.2
        simp only [decide_eq_true_eq] at this
        omega
  · intro e ve hev
    cases hf : lruFind s k with
    | some p =>
      rw [lru_put_found s k v p hf] at hev
      exact Option.noConfusion hev
    | none =>
      by_cases hc : s.entries.length + 1 > s.capacity
      · rw [lru_put_evict s k v hf hc] at hev
        have hne : s.entries ≠ [] := by
          intro hnil
          rw [hnil] at hc
          simp at hc
          omega
        rw [List.getLast?_eq_getLast _ (List.cons_ne_nil _ _),
          List.getLast_cons hne] at hev
        have hpe : s.entries.getLast hne = (e, ve) := Option.some.inj hev
        have hmem : (e, ve) ∈ s.entries := hpe ▸ List.getLast_mem hne
        have hpeek : s.peek e = some ve := by
          unfold LRUCache.peek lruFind
          rw [show (e : K) = ((e, ve) : K × V).1 from rfl,
            findk_of_mem_nodup s.entries (e, ve) hnd hmem]
          rfl
        refine ⟨hpeek, List.mem_map.mpr ⟨(e, ve), hmem, rfl⟩, ?_⟩
        intro j hj hje
        have hpair := lru_recency_inv cap t hmut
        rw [← hs] at hpair
        have hsplit : s.entries = s.entries.dropLast ++ [(e, ve)] := by
          rw [← hpe]
          exact (List.dropLast_append_getLast hne).symm
        rw [hsplit, List.map_append] at hpair
        have h3 := (List.pairwise_append.mp hpair).2.2
        unfold LRUCache.keysList at hj
        rw [hsplit, List.map_append] at hj
        rcases List.mem_append.mp hj with h4 | h4
        · exact h3 j h4 e (by simp)
        · simp at h4
          exact absurd h4 hje
      · rw [lru_put_room s k v hf hc] at hev
        exact Option.noConfusion hev
  · intro hcont
    cases hf : lruFind s k with
    | some p =>
      rw [lru_put_found s k v p hf]
      exact ⟨rfl, rfl⟩
    | none =>
      unfold LRUCache.contains at hcont
      rw [hf] at hcont
      simp at hcont

/-- Witness for C2: capacity 2, key 1 refreshed by a get, so the put of
key 3 evicts key 2. -/
theorem C2_lru_eviction_policy_witness :
    (0 < 2 ∧
      LruNoMut [LRUOp.put 1 10, LRUOp.put 2 20, LRUOp.get 1]) ∧
    (((((lruRun (lruNew 2 : LRUCache Nat Nat)
          [LRUOp.put 1 10, LRUOp.put 2 20, LRUOp.get 1]).put 3 30).1.isSome) ↔
      (¬ (lruRun (lruNew 2 : LRUCache Nat Nat)
          [LRUOp.put 1 10, LRUOp.put 2 20, LRUOp.get 1]).contains 3 ∧
        (lruRun (lruNew 2 : LRUCache Nat Nat)
          [LRUOp.put 1 10, LRUOp.put 2 20, LRUOp.get 1]).isFull)) ∧
    (∀ e ve, ((lruRun (lruNew 2 : LRUCache Nat Nat)
          [LRUOp.put 1 10, LRUOp.put 2 20, LRUOp.get 1]).put 3 30).1 =
        some (e, ve) →
      (lruRun (lruNew 2 : LRUCache Nat Nat)
          [LRUOp.put 1 10, LRUOp.put 2 20, LRUOp.get 1]).peek e = some ve ∧
      e ∈ (lruRun (lruNew 2 : LRUCache Nat Nat)
          [LRUOp.put 1 10, LRUOp.put 2 20, LRUOp.get 1]).keysList ∧
      ∀ j ∈ (lruRun (lruNew 2 : LRUCache Nat Nat)
          [LRUOp.put 1 10, LRUOp.put 2 20, LRUOp.get 1]).keysList, j ≠ e →
        lruLastTouch 2 [LRUOp.put 1 10, LRUOp.put 2 20, LRUOp.get 1] e <
          lruLastTouch 2 [LRUOp.put 1 10, LRUOp.put 2 20, LRUOp.get 1] j) ∧
    ((lruRun (lruNew 2 : LRUCache Nat Nat)
          [LRUOp.put 1 10, LRUOp.put 2 20, LRUOp.get 1]).contains 3 →
      ((lruRun (lruNew 2 : LRUCache Nat Nat)
          [LRUOp.put 1 10, LRUOp.put 2 20, LRUOp.get 1]).put 3 30).1 = none ∧
      ((lruRun (lruNew 2 : LRUCache Nat Nat)
          [LRUOp.put 1 10, LRUOp.put 2 20, LRUOp.get 1]).put 3 30).2.entries =
        (3, 30) :: (lruRun (lruNew 2 : LRUCache Nat Nat)
          [LRUOp.put 1 10, LRUOp.put 2 20, LRUOp.get 1]).entries.eraseP
          (fun q => q.1 = 3))) :=
  ⟨⟨by decide, by decide⟩,
    C2_lru_eviction_policy 2 [LRUOp.put 1 10, LRUOp.put 2 20, LRUOp.get 1]
      3 30 (by decide) (by decide)⟩

/-- C3: for the LFU cache and every operation sequence (remove
included), when a put of a new key arrives at capacity, the evicted key
is the head of the minimum-frequency bucket: it is removed from the
cache, its frequency is a minimum over all current entries, and among
the keys sharing that minimum frequency it is the one that entered that
frequency tier earliest (FIFO within the tier). -/
theorem C3_lfu_eviction_policy {K V : Type} [DecidableEq K] (cap : Nat)
    (t : List (LFUOp K V)) (k : K) (v : V) (hcap : 0 < cap)
    (hk : alookup (lfuRun (lfuNew cap) t).cache k = none)
    (hfull : (lfuRun (lfuNew cap) t).capacity ≤
      (lfuRun (lfuNew cap) t).len) :
    ∃ e rest ve fe,
      (lfuRun (lfuNew cap) t).freq_to_keys
        (lfuRun (lfuNew cap) t).min_freq = e :: rest ∧
      alookup (lfuRun (lfuNew cap) t).cache e = some (ve, fe) ∧
      alookup ((lfuRun (lfuNew cap) t).put k v).cache e = none ∧
      (∀ j vj fj, alookup (lfuRun (lfuNew cap) t).cache j = some (vj, fj) →
        fe ≤ fj) ∧
      (∀ j vj fj, alookup (lfuRun (lfuNew cap) t).cache j = some (vj, fj) →
        fj = fe → j ≠ e → lfuTierTime cap t e < lfuTierTime cap t j) := by
  set s := lfuRun (lfuNew cap) t with hs
  have hwf : LFUWf s := lfuRun_wf cap t hcap
  obtain ⟨e, rest, hb, hstate⟩ := lfu_put_lookup_new_full s k v hwf hk hfull
  obtain ⟨ve, hve⟩ := hwf.bucket_sound s.min_freq e (by rw [hb]; simp)
  have hke : e ≠ k := by
    intro hc
    rw [hc, hk] at hve
    exact Option.noConfusion hve
  obtain ⟨hmne, hmle⟩ := hwf.min_ok hfull
  refine ⟨e, rest, ve, s.min_freq, hb, hve, ?_, ?_, ?_⟩
  · rw [hstate e, if_neg hke, if_pos rfl]
  · intro j vj fj hj
    exact hmle j vj fj hj
  · intro j vj fj hj hfe hje
    have hmemj : j ∈ s.freq_to_keys s.min_freq := by
      have := hwf.mem_bucket j vj fj hj
      rwa [hfe] at this
    rw [hb] at hmemj
    rcases List.mem_cons.mp hmemj with h1 | h1
    · exact absurd h1 hje
    · have htier := lfu_tier_inv cap t hcap s.min_freq
      rw [← hs, hb] at htier
      exact (List.pairwise_cons.mp htier).1 j h1

/-- Witness for C3: capacity 1, the sole entry is evicted by a put of a
fresh key. -/
theorem C3_lfu_eviction_policy_witness :
    (0 < 1 ∧
      alookup (lfuRun (lfuNew 1 : LFUCache Nat Nat) [LFUOp.put 0 5]).cache 1 =
        none ∧
      (lfuRun (lfuNew 1 : LFUCache Nat Nat) [LFUOp.put 0 5]).capacity ≤
        (lfuRun (lfuNew 1 : LFUCache Nat Nat) [LFUOp.put 0 5]).len) ∧
    (∃ e rest ve fe,
      (lfuRun (lfuNew 1 : LFUCache Nat Nat) [LFUOp.put 0 5]).freq_to_keys
        (lfuRun (lfuNew 1 : LFUCache Nat Nat) [LFUOp.put 0 5]).min_freq =
          e :: rest ∧
      alookup (lfuRun (lfuNew 1 : LFUCache Nat Nat) [LFUOp.put 0 5]).cache e =
        some (ve, fe) ∧
      alookup ((lfuRun (lfuNew 1 : LFUCache Nat Nat)
        [LFUOp.put 0 5]).put 1 6).cache e = none ∧
      (∀ j vj fj, alookup (lfuRun (lfuNew 1 : LFUCache Nat Nat)
        [LFUOp.put 0 5]).cache j = some (vj, fj) → fe ≤ fj) ∧
      (∀ j vj fj, alookup (lfuRun (lfuNew 1 : LFUCache Nat Nat)
        [LFUOp.put 0 5]).cache j = some (vj, fj) → fj = fe → j ≠ e →
        lfuTierTime 1 [LFUOp.put 0 5] e < lfuTierTime 1 [LFUOp.put 0 5] j)) :=
  ⟨⟨by decide, by decide, by decide⟩,
    C3_lfu_eviction_policy 1 [LFUOp.put 0 5] 1 6 (by decide) (by decide)
      (by decide)⟩

/-- C4: for the LFU cache, after every operation each live key lies in
the bucket of its current frequency, in no other bucket, and key_to_pos
maps it to its actual position in that bucket. -/
theorem C4_lfu_index_invariant {K V : Type} [DecidableEq K] (cap : Nat)
    (t : List (LFUOp K V)) (hcap : 0 < cap) :
    ∀ k v f, alookup (lfuRun (lfuNew cap) t).cache k = some (v, f) →
      k ∈ (lfuRun (lfuNew cap) t).freq_to_keys f ∧
      (∀ g, k ∈ (lfuRun (lfuNew cap) t).freq_to_keys g → g = f) ∧
      (lfuRun (lfuNew cap) t).key_to_pos k =
        some (pidx k ((lfuRun (lfuNew cap) t).freq_to_keys f)) := by
  intro k v f hk
  have hwf := lfuRun_wf (K := K) (V := V) cap t hcap
  refine ⟨hwf.mem_bucket k v f hk, ?_, hwf.pos_eq k v f hk⟩
  intro g hg
  obtain ⟨w, hw⟩ := hwf.bucket_sound g k hg
  rw [hk] at hw
  exact (some_pair_inj hw).2.symm

/-- Witness for C4 on a trace exercising insertion, promotion and
removal ahead of a remaining key. -/
theorem C4_lfu_index_invariant_witness :
    0 < 2 ∧
    (∀ k v f, alookup (lfuRun (lfuNew 2 : LFUCache Nat Nat)
        [LFUOp.put 1 10, LFUOp.put 2 20, LFUOp.get 2,
          LFUOp.remove 1]).cache k = some (v, f) →
      k ∈ (lfuRun (lfuNew 2 : LFUCache Nat Nat)
        [LFUOp.put 1 10, LFUOp.put 2 20, LFUOp.get 2,
          LFUOp.remove 1]).freq_to_keys f ∧
      (∀ g, k ∈ (lfuRun (lfuNew 2 : LFUCache Nat Nat)
        [LFUOp.put 1 10, LFUOp.put 2 20, LFUOp.get 2,
          LFUOp.remove 1]).freq_to_keys g → g = f) ∧
      (lfuRun (lfuNew 2 : LFUCache Nat Nat)
        [LFUOp.put 1 10, LFUOp.put 2 20, LFUOp.get 2,
          LFUOp.remove 1]).key_to_pos k =
        some (pidx k ((lfuRun (lfuNew 2 : LFUCache Nat Nat)
          [LFUOp.put 1 10, LFUOp.put 2 20, LFUOp.get 2,
            LFUOp.remove 1]).freq_to_keys f))) :=
  ⟨by decide, C4_lfu_index_invariant 2
    [LFUOp.put 1 10, LFUOp.put 2 20, LFUOp.get 2, LFUOp.remove 1]
    (by decide)⟩

/-- C5: for both caches, peek/get (LRU) and get (LFU) return exactly
the value last stored for a key that was inserted and not since evicted
or removed (the reference value computed by lruStoredAux and
lfuStoredSpec, which is none exactly in the evicted or removed cases),
contains agrees with presence of such a value, and a put immediately
followed by a get returns the value just stored. -/
theorem C5_stored_values {K V : Type} [DecidableEq K] (cap : Nat)
    (hcap : 0 < cap) :
    (∀ (t : List (LRUOp K V)) (k : K),
      (lruRun (lruNew cap) t).peek k = lruStoredAux (lruNew cap) t k none ∧
      ((lruRun (lruNew cap) t).get k).1 =
        lruStoredAux (lruNew cap) t k none ∧
      (lruRun (lruNew cap) t).contains k =
        (lruStoredAux (lruNew cap) t k none).isSome) ∧
    (∀ (t : List (LFUOp K V)) (k : K),
      ((lfuRun (lfuNew cap) t).get k).1 =
        lfuStoredSpec (lfuNew cap) t k none ∧
      (lfuRun (lfuNew cap) t).contains k =
        (lfuStoredSpec (lfuNew cap) t k none).isSome) ∧
    (∀ (t : List (LRUOp K V)) (k : K) (v : V),
      ((lruRun (lruNew cap) (t ++ [LRUOp.put k v])).get k).1 = some v) ∧
    (∀ (t : List (LFUOp K V)) (k : K) (v : V),
      ((lfuRun (lfuNew cap) (t ++ [LFUOp.put k v])).get k).1 = some v) := by
  have hlru : ∀ (t : List (LRUOp K V)) (k : K),
      (lruRun (lruNew cap) t).peek k = lruStoredAux (lruNew cap) t k none := by
    intro t k
    exact lruStored_inv (lruNew cap) t k none hcap (by simp [lruNew]) rfl
  have hlfu : ∀ (t : List (LFUOp K V)) (k : K),
      (alookup (lfuRun (lfuNew cap) t).cache k).map Prod.fst =
        lfuStoredSpec (lfuNew cap) t k none := by
    intro t k
    exact lfuStoredSpec_inv (lfuNew cap) t k none (lfuNew_wf cap hcap) rfl
  refine ⟨?_, ?_, ?_, ?_⟩
  · intro t k
    refine ⟨hlru t k, ?_, ?_⟩
    · rw [lru_get_result, hlru t k]
    · rw [lru_contains_iff_peek, hlru t k]
  · intro t k
    have hwf := lfuRun_wf (K := K) (V := V) cap t hcap
    refine ⟨?_, ?_⟩
    · rw [lfu_get_result _ k hwf, hlfu t k]
    · rw [lfu_contains_iff_lookup, ← hlfu t k]
      cases alookup (lfuRun (lfuNew cap) t).cache k <;> rfl
  · intro t k v
    rw [lru_get_result]
    have hrun : lruRun (lruNew cap) (t ++ [LRUOp.put k v]) =
        ((lruRun (lruNew cap) t).put k v).2 := by
      rw [lruRun_append]
      rfl
    rw [hrun]
    refine lru_put_peek_self _ k v ?_
    rw [lruRun_capacity]
    exact hcap
  · intro t k v
    have hwf := lfuRun_wf (K := K) (V := V) cap t hcap
    have hrun : lfuRun (lfuNew cap) (t ++ [LFUOp.put k v]) =
        (lfuRun (lfuNew cap) t).put k v := by
      rw [lfuRun_append]
      rfl
    obtain ⟨f2, hf2⟩ := lfu_put_lookup_self (lfuRun (lfuNew cap) t) k v hwf
    have hwf2 : LFUWf ((lfuRun (lfuNew cap) t).put k v) :=
      lfu_put_wf _ k v hwf
    rw [hrun, lfu_get_result _ k hwf2, hf2]
    rfl

/-- Witness for C5 after an update and an eviction. -/
theorem C5_stored_values_witness :
    0 < 2 ∧
    ((lruRun (lruNew 2 : LRUCache Nat Nat)
        [LRUOp.put 1 10, LRUOp.put 1 11]).peek 1 =
      lruStoredAux (lruNew 2) [LRUOp.put 1 10, LRUOp.put 1 11] 1 none) :=
  ⟨by decide,
    (((C5_stored_values 2 (by decide)).1)
      [LRUOp.put 1 10, LRUOp.put 1 11] 1).1⟩

/-- C6: for both caches, construction with capacity 0 fails at
construction time (the panic is embedded as a none result), any cache
the constructor actually hands out has positive capacity and starts
empty, and positive capacities always construct. -/
theorem C6_zero_capacity_rejected {K V : Type} [DecidableEq K] :
    (∀ cap : Nat, (LRUCache.mk? cap : Option (LRUCache K V)) = none ↔
      cap = 0) ∧
    (∀ cap : Nat, (LFUCache.mk? cap : Option (LFUCache K V)) = none ↔
      cap = 0) ∧
    (∀ (cap : Nat) (s : LRUCache K V), LRUCache.mk? cap = some s →
      0 < s.capacity ∧ s.len = 0) ∧
    (∀ (cap : Nat) (s : LFUCache K V), LFUCache.mk? cap = some s →
      0 < s.capacity ∧ s.len = 0) := by
  refine ⟨?_, ?_, ?_, ?_⟩
  · intro cap
    unfold LRUCache.mk?
    by_cases h : cap > 0
    · rw [if_pos h]
      simp
      omega
    · rw [if_neg h]
      simp
      omega
  · intro cap
    unfold LFUCache.mk?
    by_cases h : cap > 0
    · rw [if_pos h]
      simp
      omega
    · rw [if_neg h]
      simp
      omega
  · intro cap s hs
    unfold LRUCache.mk? at hs
    by_cases h : cap > 0
    · rw [if_pos h] at hs
      cases Option.some.inj hs
      exact ⟨h, rfl⟩
    · rw [if_neg h] at hs
      exact Option.noConfusion hs
  · intro cap s hs
    unfold LFUCache.mk? at hs
    by_cases h : cap > 0
    · rw [if_pos h] at hs
      cases Option.some.inj hs
      exact ⟨h, rfl⟩
    · rw [if_neg h] at hs
      exact Option.noConfusion hs

/-- C7: for both caches, get, get_mut, peek, remove, and frequency on
an absent key return the empty option and leave the state unchanged. -/
theorem C7_miss_no_side_effect {K V : Type} [DecidableEq K]
    (s : LRUCache K V) (s2 : LFUCache K V) (k : K)
    (h1 : ¬ s.contains k) (h2 : ¬ s2.contains k) :
    s.get k = (none, s) ∧ s.getMut k = (none, s) ∧ s.peek k = none ∧
    s.remove k = (none, s) ∧
    s2.get k = (none, s2) ∧ s2.getMut k = (none, s2) ∧
    s2.remove k = (none, s2) ∧ s2.frequency k = none := by
  have hf := lru_contains_false_find s k h1
  have hl := lfu_contains_false_lookup s2 k h2
  refine ⟨lru_get_none s k hf, lru_getMut_none s k hf, ?_,
    lru_remove_none s k hf, lfu_get_absent s2 k hl,
    lfu_getMut_absent s2 k hl, lfu_remove_absent s2 k hl, ?_⟩
  · unfold LRUCache.peek
    rw [hf]
    rfl
  · rw [lfu_frequency_eq, hl]
    rfl

/-- Witness for C7 on nonempty caches missing the queried key. -/
theorem C7_miss_no_side_effect_witness :
    (¬ (lruRun (lruNew 2 : LRUCache Nat Nat) [LRUOp.put 1 10]).contains 5 ∧
      ¬ (lfuRun (lfuNew 2 : LFUCache Nat Nat) [LFUOp.put 1 10]).contains 5) ∧
    ((lruRun (lruNew 2 : LRUCache Nat Nat) [LRUOp.put 1 10]).get 5 =
        (none, lruRun (lruNew 2 : LRUCache Nat Nat) [LRUOp.put 1 10]) ∧
      (lruRun (lruNew 2 : LRUCache Nat Nat) [LRUOp.put 1 10]).getMut 5 =
        (none, lruRun (lruNew 2 : LRUCache Nat Nat) [LRUOp.put 1 10]) ∧
      (lruRun (lruNew 2 : LRUCache Nat Nat) [LRUOp.put 1 10]).peek 5 =
        none ∧
      (lruRun (lruNew 2 : LRUCache Nat Nat) [LRUOp.put 1 10]).remove 5 =
        (none, lruRun (lruNew 2 : LRUCache Nat Nat) [LRUOp.put 1 10]) ∧
      (lfuRun (lfuNew 2 : LFUCache Nat Nat) [LFUOp.put 1 10]).get 5 =
        (none, lfuRun (lfuNew 2 : LFUCache Nat Nat) [LFUOp.put 1 10]) ∧
      (lfuRun (lfuNew 2 : LFUCache Nat Nat) [LFUOp.put 1 10]).getMut 5 =
        (none, lfuRun (lfuNew 2 : LFUCache Nat Nat) [LFUOp.put 1 10]) ∧
      (lfuRun (lfuNew 2 : LFUCache Nat Nat) [LFUOp.put 1 10]).remove 5 =
        (none, lfuRun (lfuNew 2 : LFUCache Nat Nat) [LFUOp.put 1 10]) ∧
      (lfuRun (lfuNew 2 : LFUCache Nat Nat) [LFUOp.put 1 10]).frequency 5 =
        none) :=
  ⟨⟨by decide, by decide⟩,
    C7_miss_no_side_effect (lruRun (lruNew 2) [LRUOp.put 1 10])
      (lfuRun (lfuNew 2) [LFUOp.put 1 10]) 5 (by decide) (by decide)⟩

/-- C8: for the LFU cache, the frequency of every live key equals the
reference count that starts at 1 when the key is inserted and grows by
1 on every get and every value-updating put of it (computed by
lfuFreqSpec along the trace of public operations). -/
theorem C8_frequency_counts {K V : Type} [DecidableEq K] (cap : Nat)
    (t : List (LFUOp K V)) (k : K) (hcap : 0 < cap) (hmut : LfuNoMut t) :
    (lfuRun (lfuNew cap) t).frequency k =
      lfuFreqSpec (lfuNew cap) t k none := by
  rw [lfu_frequency_eq]
  exact lfuFreqSpec_inv (lfuNew cap) t k none (lfuNew_wf cap hcap) hmut rfl

/-- Witness for C8: one insert, one get, one value-updating put give
frequency 3. -/
theorem C8_frequency_counts_witness :
    (0 < 2 ∧
      LfuNoMut [LFUOp.put 1 10, LFUOp.get 1, LFUOp.put 1 11,
        LFUOp.put 2 20]) ∧
    (lfuRun (lfuNew 2 : LFUCache Nat Nat)
        [LFUOp.put 1 10, LFUOp.get 1, LFUOp.put 1 11, LFUOp.put 2 20]).frequency
        1 =
      lfuFreqSpec (lfuNew 2)
        [LFUOp.put 1 10, LFUOp.get 1, LFUOp.put 1 11, LFUOp.put 2 20] 1 none ∧
    (lfuRun (lfuNew 2 : LFUCache Nat Nat)
        [LFUOp.put 1 10, LFUOp.get 1, LFUOp.put 1 11, LFUOp.put 2 20]).frequency
        1 = some 3 :=
  ⟨⟨by decide, by decide⟩,
    C8_frequency_counts 2
      [LFUOp.put 1 10, LFUOp.get 1, LFUOp.put 1 11, LFUOp.put 2 20] 1
      (by decide) (by decide),
    by decide⟩

/-- C9: peek (LRU) and frequency (LFU) are pure reads: a single call
leaves the state fixed, and splicing any number of them into a trace
leaves the result of the whole run unchanged, so any sequence of
subsequent operations behaves identically with or without them. -/
theorem C9_reads_no_effect {K V : Type} [DecidableEq K] :
    (∀ (s : LRUCache K V) (k : K), lruStep s (LRUOp.peek k) = s) ∧
    (∀ (s : LFUCache K V) (k : K), lfuStep s (LFUOp.frequency k) = s) ∧
    (∀ (s : LRUCache K V) (t1 reads t2 : List (LRUOp K V)),
      (∀ op ∈ reads, lruIsPeek op = true) →
      lruRun s (t1 ++ reads ++ t2) = lruRun s (t1 ++ t2)) ∧
    (∀ (s : LFUCache K V) (t1 reads t2 : List (LFUOp K V)),
      (∀ op ∈ reads, lfuIsFreq op = true) →
      lfuRun s (t1 ++ reads ++ t2) = lfuRun s (t1 ++ t2)) := by
  refine ⟨fun s k => rfl, fun s k => rfl, ?_, ?_⟩
  · intro s t1 reads t2 h
    rw [lruRun_append, lruRun_append, lruRun_append,
      lruRun_reads (lruRun s t1) reads h]
  · intro s t1 reads t2 h
    rw [lfuRun_append, lfuRun_append, lfuRun_append,
      lfuRun_reads (lfuRun s t1) reads h]

/-- Witness for C9: two peeks and two frequency calls spliced between
puts change nothing. -/
theorem C9_reads_no_effect_witness :
    ((∀ op ∈ [LRUOp.peek (K := Nat) (V := Nat) 1, LRUOp.peek 7],
        lruIsPeek op = true) ∧
      (∀ op ∈ [LFUOp.frequency (K := Nat) (V := Nat) 1, LFUOp.frequency 7],
        lfuIsFreq op = true)) ∧
    lruRun (lruNew 2 : LRUCache Nat Nat)
        ([LRUOp.put 1 10] ++ [LRUOp.peek 1, LRUOp.peek 7] ++
          [LRUOp.put 2 20]) =
      lruRun (lruNew 2) ([LRUOp.put 1 10] ++ [LRUOp.put 2 20]) ∧
    lfuRun (lfuNew 2 : LFUCache Nat Nat)
        ([LFUOp.put 1 10] ++ [LFUOp.frequency 1, LFUOp.frequency 7] ++
          [LFUOp.put 2 20]) =
      lfuRun (lfuNew 2) ([LFUOp.put 1 10] ++ [LFUOp.put 2 20]) :=
  ⟨⟨by decide, by decide⟩,
    (C9_reads_no_effect.2.2.1) (lruNew 2) [LRUOp.put 1 10]
      [LRUOp.peek 1, LRUOp.peek 7] [LRUOp.put 2 20] (by decide),
    (C9_reads_no_effect.2.2.2) (lfuNew 2) [LFUOp.put 1 10]
      [LFUOp.frequency 1, LFUOp.frequency 7] [LFUOp.put 2 20] (by decide)⟩

/-- C10: get_mut behaves like get on both caches: identical state
transition and read value, no change on a miss; on a hit the LRU cache
moves the node to the head and the LFU cache bumps the frequency by
one. -/
theorem C10_getMut_behavior {K V : Type} [DecidableEq K]
    (s : LRUCache K V) (s2 : LFUCache K V) (k : K) :
    s.getMut k = s.get k ∧
    s2.getMut k = s2.get k ∧
    (¬ s.contains k → s.getMut k = (none, s)) ∧
    (¬ s2.contains k → s2.getMut k = (none, s2)) ∧
    (∀ p, lruFind s k = some p →
      (s.getMut k).1 = some p.2 ∧
      (s.getMut k).2.entries =
        p :: s.entries.eraseP (fun q => q.1 = k)) ∧
    (∀ v f, alookup s2.cache k = some (v, f) →
      (s2.getMut k).1 = some v ∧
      (s2.getMut k).2 = incrementFrequency s2 k ∧
      (s2.getMut k).2.frequency k = some (f + 1)) := by
  refine ⟨lru_getMut_eq_get s k, lfu_getMut_eq_get s2 k, ?_, ?_, ?_, ?_⟩
  · intro h
    exact lru_getMut_none s k (lru_contains_false_find s k h)
  · intro h
    exact lfu_getMut_absent s2 k (lfu_contains_false_lookup s2 k h)
  · intro p hp
    rw [lru_getMut_found s k p hp]
    exact ⟨rfl, rfl⟩
  · intro v f hk
    have hc := incrementFrequency_cache_self s2 k v f hk
    have hstep : s2.getMut k =
        ((alookup (incrementFrequency s2 k).cache k).map Prod.fst,
          incrementFrequency s2 k) := by
      unfold LFUCache.getMut
      rw [hk]
      rfl
    rw [hstep, hc]
    exact ⟨rfl, rfl, by rw [lfu_frequency_eq, hc]; rfl⟩

/-- Witness for C10 on caches holding the queried key. -/
theorem C10_getMut_behavior_witness :
    ((lruRun (lruNew 2 : LRUCache Nat Nat) [LRUOp.put 1 10]).getMut 1 =
        (lruRun (lruNew 2 : LRUCache Nat Nat) [LRUOp.put 1 10]).get 1 ∧
      (lfuRun (lfuNew 2 : LFUCache Nat Nat) [LFUOp.put 1 10]).getMut 1 =
        (lfuRun (lfuNew 2 : LFUCache Nat Nat) [LFUOp.put 1 10]).get 1 ∧
      (¬ (lruRun (lruNew 2 : LRUCache Nat Nat) [LRUOp.put 1 10]).contains 1 →
        (lruRun (lruNew 2 : LRUCache Nat Nat) [LRUOp.put 1 10]).getMut 1 =
          (none, lruRun (lruNew 2 : LRUCache Nat Nat) [LRUOp.put 1 10])) ∧
      (¬ (lfuRun (lfuNew 2 : LFUCache Nat Nat) [LFUOp.put 1 10]).contains 1 →
        (lfuRun (lfuNew 2 : LFUCache Nat Nat) [LFUOp.put 1 10]).getMut 1 =
          (none, lfuRun (lfuNew 2 : LFUCache Nat Nat) [LFUOp.put 1 10])) ∧
      (∀ p, lruFind (lruRun (lruNew 2 : LRUCache Nat Nat) [LRUOp.put 1 10]) 1 =
          some p →
        ((lruRun (lruNew 2 : LRUCache Nat Nat) [LRUOp.put 1 10]).getMut 1).1 =
          some p.2 ∧
        ((lruRun (lruNew 2 : LRUCache Nat Nat)
            [LRUOp.put 1 10]).getMut 1).2.entries =
          p :: (lruRun (lruNew 2 : LRUCache Nat Nat)
            [LRUOp.put 1 10]).entries.eraseP (fun q => q.1 = 1)) ∧
      (∀ v f, alookup (lfuRun (lfuNew 2 : LFUCache Nat Nat)
            [LFUOp.put 1 10]).cache 1 = some (v, f) →
        ((lfuRun (lfuNew 2 : LFUCache Nat Nat) [LFUOp.put 1 10]).getMut 1).1 =
          some v ∧
        ((lfuRun (lfuNew 2 : LFUCache Nat Nat) [LFUOp.put 1 10]).getMut 1).2 =
          incrementFrequency
            (lfuRun (lfuNew 2 : LFUCache Nat Nat) [LFUOp.put 1 10]) 1 ∧
        ((lfuRun (lfuNew 2 : LFUCache Nat Nat)
            [LFUOp.put 1 10]).getMut 1).2.frequency 1 = some (f + 1))) ∧
    ((lfuRun (lfuNew 2 : LFUCache Nat Nat)
        [LFUOp.put 1 10]).getMut 1).2.frequency 1 = some 2 :=
  ⟨C10_getMut_behavior (lruRun (lruNew 2) [LRUOp.put 1 10])
      (lfuRun (lfuNew 2) [LFUOp.put 1 10]) 1,
    by decide⟩

end Claims

end DsaCaches
